import Mathlib

/-!
Verification of the `Dictionary` associative container
(`src/Dictionary.h`): a CRC32-keyed unbalanced binary search tree with
string-equality collision resolution, paired with an index array (`NodeArray`)
that mirrors the set of live tree nodes for positional access.

Strings are modelled as byte lists (`Str`), machine words (`uintNN_t`,
here the default 32-bit build, `_DICT_CRC64_` not defined) as `Nat`
(all intermediate values provably stay below `2^32`, the `uint8_t` casts
are explicit `% 256`).  Node identity (the C++ `node*` pointer values held
by the index array) is modelled by a per-dictionary allocation counter
`nextId`: each `new node` receives the next id.  Heap mutation becomes
functional update; the index array is threaded through the mutating
operations exactly where the C++ calls `Q->append` / `Q->remove`.
-/

namespace DictModel

/-- Byte strings: the `String` collaborator is specified as an opaque,
length-bearing, equality-comparable byte sequence; the empty sentinel is
`[]`. -/
abbrev Str := List Nat

/-! ## The CRC32 hash (`Dictionary::crc`, 32-bit variant, and the table
built in the constructor) -/

/-- One round of the table-generator loop in the constructor:
`r = (r & 1 ? 0 : 0xEDB88320) ^ (r >> 1)`. -/
def tstep (r : Nat) : Nat := (if r % 2 = 1 then 0 else 0xEDB88320) ^^^ (r / 2)

/-- `table[i]`: eight generator rounds, then `^ 0xFF000000`. -/
def table (i : Nat) : Nat :=
  tstep (tstep (tstep (tstep (tstep (tstep (tstep (tstep i))))))) ^^^ 0xFF000000

/-- One byte of `Dictionary::crc`:
`crc = table[(uint8_t)crc ^ byte] ^ (crc >> 8)`. -/
def crcStep (c b : Nat) : Nat := table ((c % 256) ^^^ (b % 256)) ^^^ (c / 256)

/-- `Dictionary::crc(keystr.c_str(), keystr.length())`, accumulator
starting at 0, consuming the key's bytes in order. -/
def crc (s : Str) : Nat := s.foldl crcStep 0

/-! ## Trees of nodes (`struct node`) -/

/-- The `node` tree: `nil` models a `NULL` child pointer, `node` carries
the allocation id (pointer identity), `key` (hash), `keystr`, `valstr`
and the two children. -/
inductive Tree where
  | nil : Tree
  | node (nid : Nat) (key : Nat) (keystr valstr : Str) (l r : Tree) : Tree
deriving DecidableEq, Repr

namespace Tree

/-- All `(key, keystr, valstr)` triples in the tree, in-order. -/
def contentsOf : Tree → List (Nat × Str × Str)
  | .nil => []
  | .node _ k kst vst l r => contentsOf l ++ (k, kst, vst) :: contentsOf r

/-- All `(key, keystr)` pairs in the tree, in-order. -/
def pairsOf : Tree → List (Nat × Str)
  | .nil => []
  | .node _ k kst _ l r => pairsOf l ++ (k, kst) :: pairsOf r

/-- All hash keys in the tree, in-order. -/
def keysOf : Tree → List Nat
  | .nil => []
  | .node _ k _ _ l r => keysOf l ++ k :: keysOf r

/-- All allocation ids in the tree, in-order. -/
def idsOf : Tree → List Nat
  | .nil => []
  | .node i _ _ _ l r => idsOf l ++ i :: idsOf r

end Tree

/-! ## The index array (`NodeArray`)

`Dictionary.h` includes `NodeArray.h`, which is not part of this source
snapshot; only its call sites (`append`, `remove`, `operator[]`, `count`)
appear in `Dictionary.h`. -/

/-- Modelled from the spec: `NodeArray` (the spec's IndexArray, §4.2) is a
growable ordered sequence of live node references with `append` at
the end, `remove` by identity (no-op when absent), positional `get`
yielding none out of bounds, and `count`.  References are allocation
ids. -/
abbrev NodeArray := List Nat

/-- Modelled from the spec: `NodeArray::append` adds the reference at the
end. -/
def NodeArray.append (q : NodeArray) (x : Nat) : NodeArray := q ++ [x]

/-- Modelled from the spec: `NodeArray::remove` removes the specific
reference if present (ids are unique, so removing the first occurrence
is removal by identity); no-op if absent. -/
def NodeArray.removeRef (q : NodeArray) (x : Nat) : NodeArray := q.erase x

/-- Modelled from the spec: `NodeArray::operator[]` returns the `i`-th
live reference, or null (`none`) when `i` is out of bounds. -/
def NodeArray.get (q : NodeArray) (i : Nat) : Option Nat := q.get? i

/-- Modelled from the spec: `NodeArray::count` is the number of stored
references. -/
def NodeArray.countOf (q : NodeArray) : Nat := q.length

/-! ## The Dictionary state and its operations -/

/-- The `Dictionary` object: root pointer `iRoot`, index array `Q`, the
allocation counter modelling pointer identity of `new node`, and the
constructor's `initSize` (capacity hint for `NodeArray`, functionally
inert in the model). -/
structure Dictionary where
  iRoot : Tree
  Q : NodeArray
  nextId : Nat
  initSize : Nat
deriving DecidableEq, Repr

/-- `Dictionary::Dictionary(init_size)`: null root, fresh `NodeArray`. -/
def Dictionary.init (init_size : Nat) : Dictionary :=
  { iRoot := .nil, Q := [], nextId := 0, initSize := init_size }

/-- The private recursive `Dictionary::insert(key, keystr, valstr, leaf)`.
It mutates `leaf`'s subtree and possibly appends one `new node` to `Q`;
the result is `(new subtree, new allocation counter, new Q)`.  The C++
precondition is `leaf != NULL`; on `nil` the model is the identity. -/
def insertN (h : Nat) (ks vs : Str) : Tree → Nat → NodeArray → Tree × Nat × NodeArray
  | .nil, f, q => (.nil, f, q)
  | .node i k kst vst l r, f, q =>
    if h < k then
      match l with
      | .nil =>
        (.node i k kst vst (.node f h ks vs .nil .nil) r, f + 1, q.append f)
      | .node a b c d e g =>
        let res := insertN h ks vs (.node a b c d e g) f q
        (.node i k kst vst res.1 r, res.2.1, res.2.2)
    else if k < h then
      match r with
      | .nil =>
        (.node i k kst vst l (.node f h ks vs .nil .nil), f + 1, q.append f)
      | .node a b c d e g =>
        let res := insertN h ks vs (.node a b c d e g) f q
        (.node i k kst vst l res.1, res.2.1, res.2.2)
    else
      if kst = ks then (.node i k kst vs l r, f, q)
      else
        match r with
        | .nil =>
          (.node i k kst vst l (.node f h ks vs .nil .nil), f + 1, q.append f)
        | .node a b c d e g =>
          let res := insertN h ks vs (.node a b c d e g) f q
          (.node i k kst vst l res.1, res.2.1, res.2.2)

/-- The private `Dictionary::search(key, leaf, keystr)`: returns the found
node's `(nid, key, keystr, valstr)` or none. -/
def searchN (h : Nat) (ks : Str) : Tree → Option (Nat × Nat × Str × Str)
  | .nil => none
  | .node i k kst vst l r =>
    if h = k ∧ kst = ks then some (i, k, kst, vst)
    else if h < k then searchN h ks l
    else searchN h ks r

/-- `Dictionary::minValueNode`: the leftmost node of a (non-null) subtree,
as `(nid, key, keystr, valstr)`. -/
def minValueNode : Tree → Nat × Nat × Str × Str
  | .nil => (0, 0, [], [])
  | .node i k kst vst .nil _ => (i, k, kst, vst)
  | .node _ _ _ _ (.node a b c d e g) _ => minValueNode (.node a b c d e g)

/-- `Dictionary::deleteNode(root, key, keystr)`: standard BST delete
keyed on the hash with `keystr` re-verified at hash-equal nodes
(collision spine walked right); splicing a node calls `Q->remove` on it;
the two-child case copies the in-order successor's content into the
matched node and deletes the successor from the right subtree.  Returns
`(new subtree, new Q)`. -/
def deleteNode (h : Nat) (ks : Str) : Tree → NodeArray → Tree × NodeArray
  | .nil, q => (.nil, q)
  | .node i k kst vst l r, q =>
    if h < k then
      let res := deleteNode h ks l q
      (.node i k kst vst res.1 r, res.2)
    else if k < h then
      let res := deleteNode h ks r q
      (.node i k kst vst l res.1, res.2)
    else
      if kst = ks then
        match l with
        | .nil => (r, q.removeRef i)
        | .node la lb lc ld le lg =>
          match r with
          | .nil => (.node la lb lc ld le lg, q.removeRef i)
          | .node ra rb rc rd re rg =>
            let t := minValueNode (.node ra rb rc rd re rg)
            let res := deleteNode t.2.1 t.2.2.1 (.node ra rb rc rd re rg) q
            (.node i t.2.1 t.2.2.1 t.2.2.2 (.node la lb lc ld le lg) res.1, res.2)
      else
        let res := deleteNode h ks r q
        (.node i k kst vst l res.1, res.2)

/-- The node reference a node with this id resolves to: its current
`(key, keystr, valstr)` content (pointer dereference in the model). -/
def findById : Tree → Nat → Option (Nat × Str × Str)
  | .nil, _ => none
  | .node i k kst vst l r, x =>
    if i = x then some (k, kst, vst)
    else
      match findById l x with
      | some res => some res
      | none => findById r x

namespace Dictionary

/-- Public `Dictionary::insert(keystr, valstr)`. -/
def insert (d : Dictionary) (ks vs : Str) : Dictionary :=
  let h := crc ks
  match d.iRoot with
  | .node a b c e g j =>
    let res := insertN h ks vs (.node a b c e g j) d.nextId d.Q
    { d with iRoot := res.1, nextId := res.2.1, Q := res.2.2 }
  | .nil =>
    { d with iRoot := .node d.nextId h ks vs .nil .nil,
             nextId := d.nextId + 1, Q := d.Q.append d.nextId }

/-- Public `Dictionary::search(keystr)`: the found node's value, or the
empty string `String("")` on a miss. -/
def search (d : Dictionary) (ks : Str) : Str :=
  match searchN (crc ks) ks d.iRoot with
  | some p => p.2.2.2
  | none => []

/-- `Dictionary::operator()(String keystr)`: true iff the key is found. -/
def containsKey (d : Dictionary) (ks : Str) : Bool :=
  (searchN (crc ks) ks d.iRoot).isSome

/-- `Dictionary::remove(keystr)`: search first; when found, run
`deleteNode` from the root with the found node's hash and the given
string. -/
def remove (d : Dictionary) (ks : Str) : Dictionary :=
  match searchN (crc ks) ks d.iRoot with
  | some p =>
    let res := deleteNode p.2.1 ks d.iRoot d.Q
    { d with iRoot := res.1, Q := res.2 }
  | none => d

/-- `Dictionary::key(i)`: dereference `(*Q)[i]`, returning its `keystr`,
or the empty string when the slot is null. -/
def keyAt (d : Dictionary) (i : Nat) : Str :=
  match d.Q.get i with
  | some nid =>
    match findById d.iRoot nid with
    | some c => c.2.1
    | none => []
  | none => []

/-- `Dictionary::value(i)`: dereference `(*Q)[i]`, returning its `valstr`,
or the empty string when the slot is null. -/
def valueAt (d : Dictionary) (i : Nat) : Str :=
  match d.Q.get i with
  | some nid =>
    match findById d.iRoot nid with
    | some c => c.2.2
    | none => []
  | none => []

/-- `Dictionary::count()` = `Q->count()`. -/
def count (d : Dictionary) : Nat := d.Q.countOf

/-- `Dictionary::size()`: loop `i` over `[0, count)`, adding
`key(i).length() + value(i).length() + 2`. -/
def size (d : Dictionary) : Nat :=
  (List.range d.count).foldl (fun sz i => sz + (d.keyAt i).length + (d.valueAt i).length + 2) 0

/-- `Dictionary::operator==`: fast mismatch on `size` then `count`, then
every positional entry of `a` looked up in `b` with equal value. -/
def beq (a b : Dictionary) : Bool :=
  if b.size ≠ a.size then false
  else if b.count ≠ a.count then false
  else (List.range a.count).all (fun i => a.valueAt i = b.search (a.keyAt i))

/-- `Dictionary::destroy()`: frees the whole tree (`destroy_tree(iRoot)`),
replaces `Q` by a fresh `NodeArray(initSize)` — and does **not** assign
`iRoot`, which keeps its (now dangling) value.  The model keeps the root
as-is, which is the refinement of the resulting use-after-free in which
the freed bytes are still intact. -/
def destroy (d : Dictionary) : Dictionary :=
  { d with Q := [] }

end Dictionary

/-! ## Pure descriptions of the mutating operations

`insT`/`insNew` and `delT`/`delRem` describe the tree result, whether a
node is allocated, and which node id is unregistered, separately from
the threaded state; `insertN_eq` and `deleteNode_eq` prove them faithful
to the threaded definitions. -/

/-- The tree produced by `insertN` (with `f` the id a `new node` would
get). -/
def insT (h : Nat) (ks vs : Str) (f : Nat) : Tree → Tree
  | .nil => .nil
  | .node i k kst vst l r =>
    if h < k then
      match l with
      | .nil => .node i k kst vst (.node f h ks vs .nil .nil) r
      | .node a b c d e g => .node i k kst vst (insT h ks vs f (.node a b c d e g)) r
    else if k < h then
      match r with
      | .nil => .node i k kst vst l (.node f h ks vs .nil .nil)
      | .node a b c d e g => .node i k kst vst l (insT h ks vs f (.node a b c d e g))
    else
      if kst = ks then .node i k kst vs l r
      else
        match r with
        | .nil => .node i k kst vst l (.node f h ks vs .nil .nil)
        | .node a b c d e g => .node i k kst vst l (insT h ks vs f (.node a b c d e g))

/-- Whether `insertN` allocates a new node. -/
def insNew (h : Nat) (ks : Str) : Tree → Bool
  | .nil => false
  | .node _ k kst _ l r =>
    if h < k then
      match l with
      | .nil => true
      | .node a b c d e g => insNew h ks (.node a b c d e g)
    else if k < h then
      match r with
      | .nil => true
      | .node a b c d e g => insNew h ks (.node a b c d e g)
    else
      if kst = ks then false
      else
        match r with
        | .nil => true
        | .node a b c d e g => insNew h ks (.node a b c d e g)

/-- The tree produced by `deleteNode`. -/
def delT (h : Nat) (ks : Str) : Tree → Tree
  | .nil => .nil
  | .node i k kst vst l r =>
    if h < k then .node i k kst vst (delT h ks l) r
    else if k < h then .node i k kst vst l (delT h ks r)
    else
      if kst = ks then
        match l with
        | .nil => r
        | .node la lb lc ld le lg =>
          match r with
          | .nil => .node la lb lc ld le lg
          | .node ra rb rc rd re rg =>
            let t := minValueNode (.node ra rb rc rd re rg)
            .node i t.2.1 t.2.2.1 t.2.2.2 (.node la lb lc ld le lg)
              (delT t.2.1 t.2.2.1 (.node ra rb rc rd re rg))
      else .node i k kst vst l (delT h ks r)

/-- The id `deleteNode` unregisters from `Q`, if any. -/
def delRem (h : Nat) (ks : Str) : Tree → Option Nat
  | .nil => none
  | .node i k kst _ l r =>
    if h < k then delRem h ks l
    else if k < h then delRem h ks r
    else
      if kst = ks then
        match l with
        | .nil => some i
        | .node _ _ _ _ _ _ =>
          match r with
          | .nil => some i
          | .node ra rb rc rd re rg =>
            let t := minValueNode (.node ra rb rc rd re rg)
            delRem t.2.1 t.2.2.1 (.node ra rb rc rd re rg)
      else delRem h ks r

/-- Apply an optional unregistration to `Q`. -/
def delQ (q : NodeArray) : Option Nat → NodeArray
  | none => q
  | some a => q.removeRef a

theorem insertN_eq (h : Nat) (ks vs : Str) : ∀ (t : Tree) (f : Nat) (q : NodeArray),
    insertN h ks vs t f q =
      (insT h ks vs f t, (if insNew h ks t then f + 1 else f),
        (if insNew h ks t then q.append f else q)) := by
  intro t
  induction t with
  | nil => intro f q; rfl
  | node i k kst vst l r ihl ihr =>
    intro f q
    unfold insertN insT insNew
    by_cases h1 : h < k
    · cases l with
      | nil => simp [h1]
      | node a b c d e g => simp [h1, ihl]
    · by_cases h2 : k < h
      · cases r with
        | nil => simp [h1, h2]
        | node a b c d e g => simp [h1, h2, ihr]
      · by_cases h3 : kst = ks
        · simp [h1, h2, h3]
        · cases r with
          | nil => simp [h1, h2, h3]
          | node a b c d e g => simp [h1, h2, h3, ihr]

theorem deleteNode_eq : ∀ (t : Tree) (h : Nat) (ks : Str) (q : NodeArray),
    deleteNode h ks t q = (delT h ks t, delQ q (delRem h ks t)) := by
  intro t
  induction t with
  | nil => intro h ks q; rfl
  | node i k kst vst l r ihl ihr =>
    intro h ks q
    unfold deleteNode delT delRem
    by_cases h1 : h < k
    · simp [h1, ihl, delQ]
    · by_cases h2 : k < h
      · simp [h1, h2, ihr, delQ]
      · by_cases h3 : kst = ks
        · cases l with
          | nil => simp [delQ, h1, h2, h3]
          | node la lb lc ld le lg =>
            cases r with
            | nil => simp [delQ, h1, h2, h3]
            | node ra rb rc rd re rg =>
              simp [h1, h2, h3, ihr, delQ]
        · simp [h1, h2, h3, ihr, delQ]

/-! ## Structural facts about tree listings -/

theorem pairsOf_eq_map (t : Tree) :
    t.pairsOf = t.contentsOf.map (fun c => (c.1, c.2.1)) := by
  induction t with
  | nil => rfl
  | node i k kst vst l r ihl ihr => simp [Tree.pairsOf, Tree.contentsOf, ihl, ihr]

theorem keysOf_eq_map (t : Tree) : t.keysOf = t.pairsOf.map Prod.fst := by
  induction t with
  | nil => rfl
  | node i k kst vst l r ihl ihr => simp [Tree.keysOf, Tree.pairsOf, ihl, ihr]

theorem mem_pairs_of_mem_contents {t : Tree} {c : Nat × Str × Str}
    (hc : c ∈ t.contentsOf) : (c.1, c.2.1) ∈ t.pairsOf := by
  rw [pairsOf_eq_map]
  exact List.mem_map.mpr ⟨c, hc, rfl⟩

theorem mem_keys_of_mem_pairs {t : Tree} {p : Nat × Str}
    (hp : p ∈ t.pairsOf) : p.1 ∈ t.keysOf := by
  rw [keysOf_eq_map]
  exact List.mem_map.mpr ⟨p, hp, rfl⟩

theorem nodupSplit {α : Type} {y : α} {xs ys : List α} (hn : (xs ++ y :: ys).Nodup) :
    y ∉ xs ∧ y ∉ ys ∧ xs.Nodup ∧ ys.Nodup ∧ ∀ a ∈ xs, a ∉ ys := by
  rw [List.nodup_append] at hn
  obtain ⟨hxs, hyys, hdisj⟩ := hn
  rw [List.nodup_cons] at hyys
  exact ⟨fun hyx => hdisj hyx (by simp), hyys.1, hxs, hyys.2,
    fun a ha hays => hdisj ha (by simp [hays])⟩

/-! ## The search-tree invariant -/

/-- All hash keys of a subtree satisfy `p`. -/
def AllKeys (p : Nat → Prop) (t : Tree) : Prop := ∀ x ∈ t.keysOf, p x

/-- The ordering invariant maintained by the `Dictionary` tree: keys in a
left subtree are strictly below the node's key, keys in a right subtree
at or above it (hash-equal colliding keys are chained right). -/
inductive BST : Tree → Prop where
  | nil : BST .nil
  | node {i k : Nat} {kst vst : Str} {l r : Tree} :
      AllKeys (fun x => x < k) l → AllKeys (fun x => k ≤ x) r →
      BST l → BST r → BST (.node i k kst vst l r)

theorem allKeys_nil (p : Nat → Prop) : AllKeys p .nil := by
  intro x hx
  simp [Tree.keysOf] at hx

theorem allKeys_node {p : Nat → Prop} {i k : Nat} {kst vst : Str} {l r : Tree} :
    AllKeys p (.node i k kst vst l r) ↔ AllKeys p l ∧ p k ∧ AllKeys p r := by
  constructor
  · intro ha
    exact ⟨fun x hx => ha x (by simp [Tree.keysOf, hx]), ha k (by simp [Tree.keysOf]),
      fun x hx => ha x (by simp [Tree.keysOf, hx])⟩
  · rintro ⟨hl, hk, hr⟩ x hx
    simp only [Tree.keysOf, List.mem_append, List.mem_cons] at hx
    rcases hx with hx | hx | hx
    · exact hl x hx
    · exact hx ▸ hk
    · exact hr x hx

theorem allKeys_mono {p q : Nat → Prop} {t : Tree} (hpq : ∀ x, p x → q x)
    (hp : AllKeys p t) : AllKeys q t := fun x hx => hpq x (hp x hx)

/-! ## Search: soundness (invariant-free) and completeness -/

theorem searchN_some {h : Nat} {ks : Str} :
    ∀ {t : Tree} {o : Nat × Nat × Str × Str}, searchN h ks t = some o →
      o.2.1 = h ∧ o.2.2.1 = ks ∧ (h, ks, o.2.2.2) ∈ t.contentsOf := by
  intro t
  induction t with
  | nil => intro o ho; simp [searchN] at ho
  | node i k kst vst l r ihl ihr =>
    intro o ho
    unfold searchN at ho
    by_cases h1 : h = k ∧ kst = ks
    · rw [if_pos h1] at ho
      obtain ⟨rfl⟩ := Option.some_injective _ ho
      simp [Tree.contentsOf, h1.1, h1.2]
    · rw [if_neg h1] at ho
      by_cases h2 : h < k
      · rw [if_pos h2] at ho
        obtain ⟨e1, e2, e3⟩ := ihl ho
        exact ⟨e1, e2, by simp [Tree.contentsOf, e3]⟩
      · rw [if_neg h2] at ho
        obtain ⟨e1, e2, e3⟩ := ihr ho
        exact ⟨e1, e2, by simp [Tree.contentsOf, e3]⟩

theorem searchN_complete {h : Nat} {ks v : Str} :
    ∀ {t : Tree}, BST t → t.pairsOf.Nodup → (h, ks, v) ∈ t.contentsOf →
      ∃ i, searchN h ks t = some (i, h, ks, v) := by
  intro t
  induction t with
  | nil => intro _ _ hm; simp [Tree.contentsOf] at hm
  | node i k kst vst l r ihl ihr =>
    intro hb hu hm
    cases hb with
    | node hkl hkr bl br =>
      have hsplit := @nodupSplit _ (k, kst) (Tree.pairsOf l) (Tree.pairsOf r)
        (by simpa [Tree.pairsOf] using hu)
      simp only [Tree.contentsOf, List.mem_append, List.mem_cons] at hm
      rcases hm with hm | hm | hm
      · have hlt : h < k := hkl h (mem_keys_of_mem_pairs (mem_pairs_of_mem_contents hm))
        have hne : ¬(h = k ∧ kst = ks) := fun hc => absurd hc.1 (Nat.ne_of_lt hlt)
        obtain ⟨j, hj⟩ := ihl bl hsplit.2.2.1 hm
        exact ⟨j, by unfold searchN; rw [if_neg hne, if_pos hlt, hj]⟩
      · simp only [Prod.mk.injEq] at hm
        obtain ⟨rfl, rfl, rfl⟩ := hm
        exact ⟨i, by unfold searchN; simp⟩
      · have hpr : (h, ks) ∈ Tree.pairsOf r := mem_pairs_of_mem_contents hm
        have hge : k ≤ h := hkr h (mem_keys_of_mem_pairs hpr)
        have hne : ¬(h = k ∧ kst = ks) := by
          rintro ⟨rfl, rfl⟩
          exact hsplit.2.1 hpr
        obtain ⟨j, hj⟩ := ihr br hsplit.2.2.2.1 hm
        refine ⟨j, ?_⟩
        unfold searchN
        rw [if_neg hne, if_neg (Nat.not_lt.mpr hge), hj]

/-! ## Insert and search interaction (invariant-free) -/

theorem searchN_insT_self {h : Nat} {ks vs : Str} {f : Nat} :
    ∀ {t : Tree}, t ≠ .nil →
      ∃ j, searchN h ks (insT h ks vs f t) = some (j, h, ks, vs) := by
  intro t
  induction t with
  | nil => intro hne; exact absurd rfl hne
  | node i k kst vst l r ihl ihr =>
    intro _
    unfold insT
    by_cases h1 : h < k
    · rw [if_pos h1]
      have hcond : ¬(h = k ∧ kst = ks) := fun hc => absurd hc.1 (Nat.ne_of_lt h1)
      cases l with
      | nil =>
        exact ⟨f, by unfold searchN; rw [if_neg hcond, if_pos h1]; unfold searchN; simp⟩
      | node a b c d e g =>
        obtain ⟨j, hj⟩ := ihl (by simp)
        exact ⟨j, by unfold searchN; rw [if_neg hcond, if_pos h1]; exact hj⟩
    · rw [if_neg h1]
      by_cases h2 : k < h
      · rw [if_pos h2]
        have hcond : ¬(h = k ∧ kst = ks) := fun hc => absurd hc.1.symm (Nat.ne_of_lt h2)
        cases r with
        | nil =>
          exact ⟨f, by unfold searchN; rw [if_neg hcond, if_neg h1]; unfold searchN; simp⟩
        | node a b c d e g =>
          obtain ⟨j, hj⟩ := ihr (by simp)
          exact ⟨j, by unfold searchN; rw [if_neg hcond, if_neg h1]; exact hj⟩
      · rw [if_neg h2]
        have hk : h = k := Nat.le_antisymm (Nat.not_lt.mp h2) (Nat.not_lt.mp h1)
        by_cases h3 : kst = ks
        · rw [if_pos h3]
          exact ⟨i, by unfold searchN; rw [if_pos ⟨hk, h3⟩, hk, h3]⟩
        · rw [if_neg h3]
          have hcond : ¬(h = k ∧ kst = ks) := fun hc => absurd hc.2 h3
          cases r with
          | nil =>
            exact ⟨f, by unfold searchN; rw [if_neg hcond, if_neg h1]; unfold searchN; simp⟩
          | node a b c d e g =>
            obtain ⟨j, hj⟩ := ihr (by simp)
            exact ⟨j, by unfold searchN; rw [if_neg hcond, if_neg h1]; exact hj⟩

theorem searchN_insT_other {h h' : Nat} {ks ks' vs : Str} {f : Nat}
    (hdiff : ¬(h' = h ∧ ks' = ks)) :
    ∀ {t : Tree}, searchN h' ks' (insT h ks vs f t) = searchN h' ks' t := by
  have hleaf : searchN h' ks' (.node f h ks vs .nil .nil) = none := by
    unfold searchN
    rw [if_neg (fun hc => hdiff ⟨hc.1, hc.2.symm⟩)]
    split <;> rfl
  intro t
  induction t with
  | nil => rfl
  | node i k kst vst l r ihl ihr =>
    unfold insT
    by_cases h1 : h < k
    · rw [if_pos h1]
      cases l with
      | nil =>
        unfold searchN
        split
        · rfl
        · split
          · exact hleaf
          · rfl
      | node a b c d e g =>
        unfold searchN
        split
        · rfl
        · split
          · exact ihl
          · rfl
    · rw [if_neg h1]
      by_cases h2 : k < h
      · rw [if_pos h2]
        cases r with
        | nil =>
          unfold searchN
          split
          · rfl
          · split
            · rfl
            · exact hleaf
        | node a b c d e g =>
          unfold searchN
          split
          · rfl
          · split
            · rfl
            · exact ihr
      · rw [if_neg h2]
        have hk : h = k := Nat.le_antisymm (Nat.not_lt.mp h2) (Nat.not_lt.mp h1)
        by_cases h3 : kst = ks
        · rw [if_pos h3]
          unfold searchN
          have hcond : ¬(h' = k ∧ kst = ks') := by
            rintro ⟨he1, he2⟩
            exact hdiff ⟨he1.trans hk.symm, he2.symm.trans h3⟩
          rw [if_neg hcond, if_neg hcond]
        · rw [if_neg h3]
          cases r with
          | nil =>
            unfold searchN
            split
            · rfl
            · split
              · rfl
              · exact hleaf
          | node a b c d e g =>
            unfold searchN
            split
            · rfl
            · split
              · rfl
              · exact ihr

/-- **C1.** For every container state, key string `k` and value string
`v`, immediately after `insert(k, v)` a lookup of `k`
(`Dictionary::search(k)`) returns `v`. -/
theorem C1_insert_then_search (d : Dictionary) (ks vs : Str) :
    (d.insert ks vs).search ks = vs := by
  obtain ⟨root, q, nid, isz⟩ := d
  cases root with
  | nil =>
    unfold Dictionary.insert Dictionary.search
    simp only []
    unfold searchN
    simp
  | node a b c e g j =>
    unfold Dictionary.insert Dictionary.search
    simp only [insertN_eq]
    obtain ⟨jw, hw⟩ := @searchN_insT_self (crc ks) ks vs nid (.node a b c e g j) (by simp)
    simp [hw]

/-! ## List helpers for permutations and nodup assembly -/

theorem nodupJoin {α : Type} {y : α} {xs ys : List α} (h1 : y ∉ xs) (h2 : y ∉ ys)
    (h3 : xs.Nodup) (h4 : ys.Nodup) (h5 : ∀ a ∈ xs, a ∉ ys) :
    (xs ++ y :: ys).Nodup := by
  rw [List.nodup_append]
  refine ⟨h3, List.nodup_cons.mpr ⟨h2, h4⟩, ?_⟩
  intro a ha hmem
  rcases List.mem_cons.mp hmem with rfl | hmem
  · exact h1 ha
  · exact h5 a ha hmem

theorem erase_perm_of_perm_cons {α : Type} [DecidableEq α] {l m : List α} {b : α}
    (hp : l.Perm (b :: m)) : (l.erase b).Perm m := by
  have := hp.erase b
  rwa [List.erase_cons_head] at this

theorem erase_append_right_perm {α : Type} [DecidableEq α] {l₂ : List α} {b : α}
    (hb : b ∈ l₂) (l₁ : List α) (a : α) :
    ((l₁ ++ a :: l₂).erase b).Perm (l₁ ++ a :: l₂.erase b) := by
  apply erase_perm_of_perm_cons
  have s1 : (l₁ ++ a :: l₂).Perm (l₁ ++ a :: (b :: l₂.erase b)) :=
    List.Perm.append_left _ (List.Perm.cons a (List.perm_cons_erase hb))
  have s2 : (l₁ ++ a :: (b :: l₂.erase b)).Perm (l₁ ++ b :: (a :: l₂.erase b)) :=
    List.Perm.append_left _ (List.Perm.swap b a _)
  have s3 : (l₁ ++ b :: (a :: l₂.erase b)).Perm (b :: (l₁ ++ a :: l₂.erase b)) :=
    List.perm_middle
  exact (s1.trans s2).trans s3

theorem erase_append_left_perm {α : Type} [DecidableEq α] {l₁ : List α} {b : α}
    (hb : b ∈ l₁) (l₂ : List α) (a : α) :
    ((l₁ ++ a :: l₂).erase b).Perm (l₁.erase b ++ a :: l₂) := by
  apply erase_perm_of_perm_cons
  have s1 : (l₁ ++ a :: l₂).Perm ((b :: l₁.erase b) ++ a :: l₂) :=
    List.Perm.append_right _ (List.perm_cons_erase hb)
  simpa using s1

/-! ## Effect of insert on tree listings -/

theorem ins_contents_sub {h : Nat} {ks vs : Str} {f : Nat} :
    ∀ {t : Tree} {trip : Nat × Str × Str}, trip ∈ (insT h ks vs f t).contentsOf →
      trip = (h, ks, vs) ∨ trip ∈ t.contentsOf := by
  intro t
  induction t with
  | nil => intro trip htr; simp [insT, Tree.contentsOf] at htr
  | node i k kst vst l r ihl ihr =>
    intro trip htr
    unfold insT at htr
    by_cases h1 : h < k
    · rw [if_pos h1] at htr
      cases l with
      | nil =>
        simp only [Tree.contentsOf, List.mem_append, List.mem_cons, List.not_mem_nil,
          or_false, List.nil_append] at htr ⊢
        tauto
      | node a b c d e g =>
        simp only [Tree.contentsOf, List.mem_append, List.mem_cons] at htr ⊢
        rcases htr with htr | htr | htr
        · rcases ihl htr with hh | hh
          · exact Or.inl hh
          · simp only [Tree.contentsOf, List.mem_append, List.mem_cons] at hh
            tauto
        · tauto
        · tauto
    · rw [if_neg h1] at htr
      by_cases h2 : k < h
      · rw [if_pos h2] at htr
        cases r with
        | nil =>
          simp only [Tree.contentsOf, List.mem_append, List.mem_cons, List.not_mem_nil,
            or_false, List.nil_append] at htr ⊢
          tauto
        | node a b c d e g =>
          simp only [Tree.contentsOf, List.mem_append, List.mem_cons] at htr ⊢
          rcases htr with htr | htr | htr
          · tauto
          · tauto
          · rcases ihr htr with hh | hh
            · exact Or.inl hh
            · simp only [Tree.contentsOf, List.mem_append, List.mem_cons] at hh
              tauto
      · rw [if_neg h2] at htr
        have hk : h = k := Nat.le_antisymm (Nat.not_lt.mp h2) (Nat.not_lt.mp h1)
        by_cases h3 : kst = ks
        · rw [if_pos h3] at htr
          simp only [Tree.contentsOf, List.mem_append, List.mem_cons] at htr ⊢
          rcases htr with htr | htr | htr
          · exact Or.inr (Or.inl htr)
          · exact Or.inl (by rw [htr, hk, h3])
          · exact Or.inr (Or.inr (Or.inr htr))
        · rw [if_neg h3] at htr
          cases r with
          | nil =>
            simp only [Tree.contentsOf, List.mem_append, List.mem_cons, List.not_mem_nil,
              or_false, List.nil_append] at htr ⊢
            tauto
          | node a b c d e g =>
            simp only [Tree.contentsOf, List.mem_append, List.mem_cons] at htr ⊢
            rcases htr with htr | htr | htr
            · tauto
            · tauto
            · rcases ihr htr with hh | hh
              · exact Or.inl hh
              · simp only [Tree.contentsOf, List.mem_append, List.mem_cons] at hh
                tauto

theorem ins_keys_sub {h : Nat} {ks vs : Str} {f : Nat} {t : Tree} {x : Nat}
    (hx : x ∈ (insT h ks vs f t).keysOf) : x = h ∨ x ∈ t.keysOf := by
  rw [keysOf_eq_map, pairsOf_eq_map] at hx
  simp only [List.map_map, List.mem_map, Function.comp] at hx
  obtain ⟨c, hc, rfl⟩ := hx
  rcases ins_contents_sub hc with rfl | hc'
  · exact Or.inl rfl
  · right
    rw [keysOf_eq_map, pairsOf_eq_map]
    simp only [List.map_map, List.mem_map, Function.comp]
    exact ⟨c, hc', rfl⟩

theorem allKeys_insT {p : Nat → Prop} {h : Nat} {ks vs : Str} {f : Nat} {t : Tree}
    (hp : AllKeys p t) (hh : p h) : AllKeys p (insT h ks vs f t) := by
  intro x hx
  rcases ins_keys_sub hx with rfl | hx'
  · exact hh
  · exact hp x hx'

theorem ins_pairs_sub {h : Nat} {ks vs : Str} {f : Nat} {t : Tree} {p : Nat × Str}
    (hp : p ∈ (insT h ks vs f t).pairsOf) : p = (h, ks) ∨ p ∈ t.pairsOf := by
  rw [pairsOf_eq_map] at hp
  obtain ⟨c, hc, rfl⟩ := List.mem_map.mp hp
  rcases ins_contents_sub hc with rfl | hc'
  · exact Or.inl rfl
  · exact Or.inr (mem_pairs_of_mem_contents hc')

theorem ins_bst {h : Nat} {ks vs : Str} {f : Nat} :
    ∀ {t : Tree}, BST t → BST (insT h ks vs f t) := by
  intro t
  induction t with
  | nil => intro _; exact BST.nil
  | node i k kst vst l r ihl ihr =>
    intro hb
    cases hb with
    | node hkl hkr bl br =>
      unfold insT
      by_cases h1 : h < k
      · rw [if_pos h1]
        cases l with
        | nil =>
          refine BST.node ?_ hkr (BST.node (allKeys_nil _) (allKeys_nil _) BST.nil BST.nil) br
          intro x hx
          simp only [Tree.keysOf, List.nil_append, List.mem_cons, List.not_mem_nil,
            or_false] at hx
          exact hx ▸ h1
        | node a b c d e g =>
          exact BST.node (allKeys_insT hkl h1) hkr (ihl bl) br
      · rw [if_neg h1]
        by_cases h2 : k < h
        · rw [if_pos h2]
          cases r with
          | nil =>
            refine BST.node hkl ?_ bl (BST.node (allKeys_nil _) (allKeys_nil _) BST.nil BST.nil)
            intro x hx
            simp only [Tree.keysOf, List.nil_append, List.mem_cons, List.not_mem_nil,
              or_false] at hx
            exact hx ▸ Nat.le_of_lt h2
          | node a b c d e g =>
            exact BST.node hkl (allKeys_insT hkr (Nat.le_of_lt h2)) bl (ihr br)
        · rw [if_neg h2]
          have hk : h = k := Nat.le_antisymm (Nat.not_lt.mp h2) (Nat.not_lt.mp h1)
          by_cases h3 : kst = ks
          · rw [if_pos h3]
            exact BST.node hkl hkr bl br
          · rw [if_neg h3]
            cases r with
            | nil =>
              refine BST.node hkl ?_ bl (BST.node (allKeys_nil _) (allKeys_nil _) BST.nil BST.nil)
              intro x hx
              simp only [Tree.keysOf, List.nil_append, List.mem_cons, List.not_mem_nil,
                or_false] at hx
              exact hx ▸ Nat.le_of_eq hk.symm
            | node a b c d e g =>
              exact BST.node hkl (allKeys_insT hkr (Nat.le_of_eq hk.symm)) bl (ihr br)

/-- Values erased: the structural part of a tree (ids, keys, key strings,
shape). -/
def stripV : Tree → Tree
  | .nil => .nil
  | .node i k kst _ l r => .node i k kst [] (stripV l) (stripV r)

theorem pairs_stripV (t : Tree) : (stripV t).pairsOf = t.pairsOf := by
  induction t with
  | nil => rfl
  | node i k kst vst l r ihl ihr => simp [stripV, Tree.pairsOf, ihl, ihr]

/-- Re-inserting a stored `(hash, key)` pair overwrites the value in
place: same structure and no allocation.  Needs only the ordering
invariant. -/
theorem ins_present_strip {h : Nat} {ks vs : Str} {f : Nat} :
    ∀ {t : Tree}, BST t → (h, ks) ∈ t.pairsOf →
      stripV (insT h ks vs f t) = stripV t ∧ insNew h ks t = false := by
  intro t
  induction t with
  | nil => intro _ hp; simp [Tree.pairsOf] at hp
  | node i k kst vst l r ihl ihr =>
    intro hb hp
    cases hb with
    | node hkl hkr bl br =>
      simp only [Tree.pairsOf, List.mem_append, List.mem_cons] at hp
      unfold insT insNew
      by_cases h1 : h < k
      · rw [if_pos h1, if_pos h1]
        have hpl : (h, ks) ∈ l.pairsOf := by
          rcases hp with hp | hp | hp
          · exact hp
          · exact absurd (congrArg Prod.fst hp) (Nat.ne_of_lt h1)
          · exact absurd (hkr h (mem_keys_of_mem_pairs hp)) (Nat.not_le.mpr h1)
        have hlnil : l ≠ .nil := by
          rintro rfl
          simp [Tree.pairsOf] at hpl
        cases l with
        | nil => exact absurd rfl hlnil
        | node a b c d e g =>
          obtain ⟨hstr, hnew⟩ := ihl bl hpl
          simp only [stripV, hnew, hstr, and_self]
      · rw [if_neg h1, if_neg h1]
        by_cases h2 : k < h
        · rw [if_pos h2, if_pos h2]
          have hpr : (h, ks) ∈ r.pairsOf := by
            rcases hp with hp | hp | hp
            · exact absurd (hkl h (mem_keys_of_mem_pairs hp)) (Nat.lt_asymm h2)
            · exact absurd (congrArg Prod.fst hp).symm (Nat.ne_of_lt h2)
            · exact hp
          have hrnil : r ≠ .nil := by
            rintro rfl
            simp [Tree.pairsOf] at hpr
          cases r with
          | nil => exact absurd rfl hrnil
          | node a b c d e g =>
            obtain ⟨hstr, hnew⟩ := ihr br hpr
            simp only [stripV, hnew, hstr, and_self]
        · rw [if_neg h2, if_neg h2]
          have hk : h = k := Nat.le_antisymm (Nat.not_lt.mp h2) (Nat.not_lt.mp h1)
          by_cases h3 : kst = ks
          · rw [if_pos h3, if_pos h3]
            exact ⟨rfl, rfl⟩
          · rw [if_neg h3, if_neg h3]
            have hpr : (h, ks) ∈ r.pairsOf := by
              rcases hp with hp | hp | hp
              · exact absurd (hk ▸ hkl h (mem_keys_of_mem_pairs hp)) (Nat.lt_irrefl h)
              · exact absurd hp (by
                  intro hc
                  exact h3 ((Prod.mk.injEq .. ▸ hc : h = k ∧ ks = kst)).2.symm)
              · exact hp
            have hrnil : r ≠ .nil := by
              rintro rfl
              simp [Tree.pairsOf] at hpr
            cases r with
            | nil => exact absurd rfl hrnil
            | node a b c d e g =>
              obtain ⟨hstr, hnew⟩ := ihr br hpr
              simp only [stripV, hnew, hstr, and_self]

theorem middle_cons_perm {α : Type} (l₁ l₂ : List α) (a b : α) :
    (l₁ ++ a :: b :: l₂).Perm (b :: (l₁ ++ a :: l₂)) := by
  have s2 : (l₁ ++ a :: b :: l₂).Perm (l₁ ++ b :: a :: l₂) :=
    List.Perm.append_left _ (List.Perm.swap b a _)
  exact s2.trans List.perm_middle

/-- Inserting a pair not yet stored adds exactly one `(h, ks, vs)` entry
to the tree contents (invariant-free). -/
theorem ins_contents_perm_new {h : Nat} {ks vs : Str} {f : Nat} :
    ∀ {t : Tree}, (h, ks) ∉ t.pairsOf → t ≠ .nil →
      (insT h ks vs f t).contentsOf.Perm ((h, ks, vs) :: t.contentsOf) := by
  intro t
  induction t with
  | nil => intro _ hne; exact absurd rfl hne
  | node i k kst vst l r ihl ihr =>
    intro hnotin _
    have hnl : (h, ks) ∉ l.pairsOf := fun hc =>
      hnotin (by simp [Tree.pairsOf, List.mem_append, hc])
    have hnr : (h, ks) ∉ r.pairsOf := fun hc =>
      hnotin (by simp [Tree.pairsOf, List.mem_append, hc])
    have hnn : (h, ks) ≠ (k, kst) := fun hc =>
      hnotin (by simp [Tree.pairsOf, List.mem_append, hc])
    unfold insT
    by_cases h1 : h < k
    · rw [if_pos h1]
      cases l with
      | nil => simp [Tree.contentsOf]
      | node a b c d e g =>
        have ih := ihl hnl (by simp)
        simp only [Tree.contentsOf]
        exact List.Perm.append_right _ ih
    · rw [if_neg h1]
      by_cases h2 : k < h
      · rw [if_pos h2]
        cases r with
        | nil =>
          simp only [Tree.contentsOf]
          have hp1 : ((l.contentsOf ++ [(k, kst, vst)]) ++ (h, ks, vs) :: []).Perm
              ((h, ks, vs) :: ((l.contentsOf ++ [(k, kst, vst)]) ++ [])) :=
            List.perm_middle
          simpa using hp1
        | node a b c d e g =>
          have ih := ihr hnr (by simp)
          simp only [Tree.contentsOf]
          have s1 : (l.contentsOf ++ (k, kst, vst) ::
              (insT h ks vs f (.node a b c d e g)).contentsOf).Perm
              (l.contentsOf ++ (k, kst, vst) :: (h, ks, vs) ::
                (Tree.node a b c d e g).contentsOf) :=
            List.Perm.append_left _ (List.Perm.cons _ ih)
          exact s1.trans (middle_cons_perm _ _ _ _)
      · rw [if_neg h2]
        have hk : h = k := Nat.le_antisymm (Nat.not_lt.mp h2) (Nat.not_lt.mp h1)
        by_cases h3 : kst = ks
        · exact absurd (by rw [hk, h3]) hnn
        · rw [if_neg h3]
          cases r with
          | nil =>
            simp only [Tree.contentsOf]
            have hp1 : ((l.contentsOf ++ [(k, kst, vst)]) ++ (h, ks, vs) :: []).Perm
                ((h, ks, vs) :: ((l.contentsOf ++ [(k, kst, vst)]) ++ [])) :=
              List.perm_middle
            simpa using hp1
          | node a b c d e g =>
            have ih := ihr hnr (by simp)
            simp only [Tree.contentsOf]
            have s1 : (l.contentsOf ++ (k, kst, vst) ::
                (insT h ks vs f (.node a b c d e g)).contentsOf).Perm
                (l.contentsOf ++ (k, kst, vst) :: (h, ks, vs) ::
                  (Tree.node a b c d e g).contentsOf) :=
              List.Perm.append_left _ (List.Perm.cons _ ih)
            exact s1.trans (middle_cons_perm _ _ _ _)

theorem ins_ids {h : Nat} {ks vs : Str} {f : Nat} :
    ∀ {t : Tree}, (insT h ks vs f t).idsOf.Perm
      (if insNew h ks t then f :: t.idsOf else t.idsOf) := by
  intro t
  induction t with
  | nil => simp [insT, insNew, Tree.idsOf]
  | node i k kst vst l r ihl ihr =>
    unfold insT insNew
    by_cases h1 : h < k
    · rw [if_pos h1, if_pos h1]
      cases l with
      | nil => simp [Tree.idsOf]
      | node a b c d e g =>
        simp only [Tree.idsOf]
        by_cases hn : insNew h ks (.node a b c d e g)
        · rw [if_pos hn]
          rw [if_pos hn] at ihl
          exact List.Perm.append_right _ ihl
        · rw [if_neg hn]
          rw [if_neg hn] at ihl
          exact List.Perm.append_right _ ihl
    · rw [if_neg h1, if_neg h1]
      by_cases h2 : k < h
      · rw [if_pos h2, if_pos h2]
        cases r with
        | nil =>
          simp only [Tree.idsOf]
          have hp1 : ((l.idsOf ++ [i]) ++ f :: []).Perm (f :: ((l.idsOf ++ [i]) ++ [])) :=
            List.perm_middle
          simpa using hp1
        | node a b c d e g =>
          simp only [Tree.idsOf]
          by_cases hn : insNew h ks (.node a b c d e g)
          · rw [if_pos hn]
            rw [if_pos hn] at ihr
            have s1 : (l.idsOf ++ i :: (insT h ks vs f (.node a b c d e g)).idsOf).Perm
                (l.idsOf ++ i :: f :: (Tree.node a b c d e g).idsOf) :=
              List.Perm.append_left _ (List.Perm.cons _ ihr)
            exact s1.trans (middle_cons_perm _ _ _ _)
          · rw [if_neg hn]
            rw [if_neg hn] at ihr
            exact List.Perm.append_left _ (List.Perm.cons _ ihr)
      · rw [if_neg h2, if_neg h2]
        by_cases h3 : kst = ks
        · rw [if_pos h3, if_pos h3]
          simp [Tree.idsOf]
        · rw [if_neg h3, if_neg h3]
          cases r with
          | nil =>
            simp only [Tree.idsOf]
            have hp1 : ((l.idsOf ++ [i]) ++ f :: []).Perm (f :: ((l.idsOf ++ [i]) ++ [])) :=
              List.perm_middle
            simpa using hp1
          | node a b c d e g =>
            simp only [Tree.idsOf]
            by_cases hn : insNew h ks (.node a b c d e g)
            · rw [if_pos hn]
              rw [if_pos hn] at ihr
              have s1 : (l.idsOf ++ i :: (insT h ks vs f (.node a b c d e g)).idsOf).Perm
                  (l.idsOf ++ i :: f :: (Tree.node a b c d e g).idsOf) :=
                List.Perm.append_left _ (List.Perm.cons _ ihr)
              exact s1.trans (middle_cons_perm _ _ _ _)
            · rw [if_neg hn]
              rw [if_neg hn] at ihr
              exact List.Perm.append_left _ (List.Perm.cons _ ihr)

/-! ## Facts about `minValueNode` and routing of a stored pair -/

theorem mem_keys_of_mem_contents {t : Tree} {c : Nat × Str × Str}
    (hc : c ∈ t.contentsOf) : c.1 ∈ t.keysOf :=
  mem_keys_of_mem_pairs (mem_pairs_of_mem_contents hc)

theorem minV_mem : ∀ {t : Tree}, t ≠ .nil → (minValueNode t).2 ∈ t.contentsOf := by
  intro t
  induction t with
  | nil => intro hne; exact absurd rfl hne
  | node i k kst vst l r ihl ihr =>
    intro _
    cases l with
    | nil => simp [minValueNode, Tree.contentsOf]
    | node a b c d e g =>
      have hm := ihl (by simp)
      exact List.mem_append_left _ hm

theorem minV_min : ∀ {t : Tree}, BST t → ∀ x ∈ t.keysOf, (minValueNode t).2.1 ≤ x := by
  intro t
  induction t with
  | nil => intro _ x hx; simp [Tree.keysOf] at hx
  | node i k kst vst l r ihl ihr =>
    intro hb x hx
    cases hb with
    | node hkl hkr bl br =>
      cases l with
      | nil =>
        simp only [Tree.keysOf, List.nil_append, List.mem_cons] at hx
        simp only [minValueNode]
        rcases hx with rfl | hx
        · exact Nat.le_refl x
        · exact hkr x hx
      | node a b c d e g =>
        have hmk : (minValueNode (.node a b c d e g)).2.1 < k :=
          hkl _ (mem_keys_of_mem_contents (minV_mem (by simp)))
        rcases List.mem_append.mp hx with hx | hx
        · exact ihl bl x hx
        · rcases List.mem_cons.mp hx with rfl | hx
          · exact Nat.le_of_lt hmk
          · exact Nat.le_trans (Nat.le_of_lt hmk) (hkr x hx)

theorem pair_mem_left {hh : Nat} {ks : Str} {i k : Nat} {kst vst : Str} {l r : Tree}
    (hp : (hh, ks) ∈ (Tree.node i k kst vst l r).pairsOf)
    (hkr : AllKeys (fun x => k ≤ x) r) (h1 : hh < k) : (hh, ks) ∈ l.pairsOf := by
  simp only [Tree.pairsOf, List.mem_append, List.mem_cons] at hp
  rcases hp with hp | hp | hp
  · exact hp
  · exact absurd (congrArg Prod.fst hp) (Nat.ne_of_lt h1)
  · exact absurd (hkr hh (mem_keys_of_mem_pairs hp)) (Nat.not_le.mpr h1)

theorem pair_mem_right {hh : Nat} {ks : Str} {i k : Nat} {kst vst : Str} {l r : Tree}
    (hp : (hh, ks) ∈ (Tree.node i k kst vst l r).pairsOf)
    (hkl : AllKeys (fun x => x < k) l) (h1 : ¬hh < k)
    (h2 : (hh, ks) ≠ (k, kst)) : (hh, ks) ∈ r.pairsOf := by
  simp only [Tree.pairsOf, List.mem_append, List.mem_cons] at hp
  rcases hp with hp | hp | hp
  · exact absurd (hkl hh (mem_keys_of_mem_pairs hp)) (by omega)
  · exact absurd hp h2
  · exact hp

/-- Deleting a pair that is not stored changes nothing (invariant-free). -/
theorem delT_absent {hh : Nat} {ks : Str} :
    ∀ {t : Tree}, (hh, ks) ∉ t.pairsOf → delT hh ks t = t ∧ delRem hh ks t = none := by
  intro t
  induction t with
  | nil => intro _; exact ⟨rfl, rfl⟩
  | node i k kst vst l r ihl ihr =>
    intro hnotin
    have hnl : (hh, ks) ∉ l.pairsOf := fun hc =>
      hnotin (by simp [Tree.pairsOf, List.mem_append, hc])
    have hnr : (hh, ks) ∉ r.pairsOf := fun hc =>
      hnotin (by simp [Tree.pairsOf, List.mem_append, hc])
    have hnn : (hh, ks) ≠ (k, kst) := fun hc =>
      hnotin (by simp [Tree.pairsOf, List.mem_append, hc])
    unfold delT delRem
    by_cases h1 : hh < k
    · rw [if_pos h1, if_pos h1, (ihl hnl).1, (ihl hnl).2]
      exact ⟨rfl, rfl⟩
    · rw [if_neg h1, if_neg h1]
      by_cases h2 : k < hh
      · rw [if_pos h2, if_pos h2, (ihr hnr).1, (ihr hnr).2]
        exact ⟨rfl, rfl⟩
      · rw [if_neg h2, if_neg h2]
        have hk : hh = k := Nat.le_antisymm (Nat.not_lt.mp h2) (Nat.not_lt.mp h1)
        have h3 : kst ≠ ks := by
          intro hc
          exact hnn (by rw [hk, hc])
        rw [if_neg h3, if_neg h3, (ihr hnr).1, (ihr hnr).2]
        exact ⟨rfl, rfl⟩

/-! Branch equations for `delT` and `delRem`. -/

theorem delT_eq_lt {hh k i : Nat} {ks kst vst : Str} {l r : Tree} (h1 : hh < k) :
    delT hh ks (.node i k kst vst l r) = .node i k kst vst (delT hh ks l) r := by
  conv_lhs => rw [delT.eq_def]
  simp only [h1, if_true]

theorem delT_eq_gt {hh k i : Nat} {ks kst vst : Str} {l r : Tree}
    (h1 : ¬hh < k) (h2 : k < hh) :
    delT hh ks (.node i k kst vst l r) = .node i k kst vst l (delT hh ks r) := by
  conv_lhs => rw [delT.eq_def]
  simp only [h1, h2, if_true, if_false]

theorem delT_eq_ne {hh k i : Nat} {ks kst vst : Str} {l r : Tree}
    (h1 : ¬hh < k) (h2 : ¬k < hh) (h3 : kst ≠ ks) :
    delT hh ks (.node i k kst vst l r) = .node i k kst vst l (delT hh ks r) := by
  conv_lhs => rw [delT.eq_def]
  simp only [h1, h2, h3, if_true, if_false]

theorem delT_eq_lnil {hh k i : Nat} {ks kst vst : Str} {r : Tree}
    (h1 : ¬hh < k) (h2 : ¬k < hh) (h3 : kst = ks) :
    delT hh ks (.node i k kst vst .nil r) = r := by
  conv_lhs => rw [delT.eq_def]
  simp only [h1, h2, h3, if_true, if_false, eq_self_iff_true]

theorem delT_eq_rnil {hh k i la lb : Nat} {ks kst vst lc ld : Str} {le lg : Tree}
    (h1 : ¬hh < k) (h2 : ¬k < hh) (h3 : kst = ks) :
    delT hh ks (.node i k kst vst (.node la lb lc ld le lg) .nil) =
      .node la lb lc ld le lg := by
  conv_lhs => rw [delT.eq_def]
  simp only [h1, h2, h3, if_true, if_false, eq_self_iff_true]

theorem delT_eq_two {hh k i la lb ra rb ti tk : Nat}
    {ks kst vst lc ld rc rd tkst tvst : Str} {le lg re rg : Tree}
    (h1 : ¬hh < k) (h2 : ¬k < hh) (h3 : kst = ks)
    (hmv : minValueNode (.node ra rb rc rd re rg) = (ti, tk, tkst, tvst)) :
    delT hh ks (.node i k kst vst (.node la lb lc ld le lg) (.node ra rb rc rd re rg)) =
      .node i tk tkst tvst (.node la lb lc ld le lg)
        (delT tk tkst (.node ra rb rc rd re rg)) := by
  conv_lhs => rw [delT.eq_def]
  simp only [h1, h2, h3, if_true, if_false, eq_self_iff_true, hmv]

theorem delRem_eq_lt {hh k i : Nat} {ks kst vst : Str} {l r : Tree} (h1 : hh < k) :
    delRem hh ks (.node i k kst vst l r) = delRem hh ks l := by
  conv_lhs => rw [delRem.eq_def]
  simp only [h1, if_true]

theorem delRem_eq_gt {hh k i : Nat} {ks kst vst : Str} {l r : Tree}
    (h1 : ¬hh < k) (h2 : k < hh) :
    delRem hh ks (.node i k kst vst l r) = delRem hh ks r := by
  conv_lhs => rw [delRem.eq_def]
  simp only [h1, h2, if_true, if_false]

theorem delRem_eq_ne {hh k i : Nat} {ks kst vst : Str} {l r : Tree}
    (h1 : ¬hh < k) (h2 : ¬k < hh) (h3 : kst ≠ ks) :
    delRem hh ks (.node i k kst vst l r) = delRem hh ks r := by
  conv_lhs => rw [delRem.eq_def]
  simp only [h1, h2, h3, if_true, if_false]

theorem delRem_eq_lnil {hh k i : Nat} {ks kst vst : Str} {r : Tree}
    (h1 : ¬hh < k) (h2 : ¬k < hh) (h3 : kst = ks) :
    delRem hh ks (.node i k kst vst .nil r) = some i := by
  conv_lhs => rw [delRem.eq_def]
  simp only [h1, h2, h3, if_true, if_false, eq_self_iff_true]

theorem delRem_eq_rnil {hh k i la lb : Nat} {ks kst vst lc ld : Str} {le lg : Tree}
    (h1 : ¬hh < k) (h2 : ¬k < hh) (h3 : kst = ks) :
    delRem hh ks (.node i k kst vst (.node la lb lc ld le lg) .nil) = some i := by
  conv_lhs => rw [delRem.eq_def]
  simp only [h1, h2, h3, if_true, if_false, eq_self_iff_true]

theorem delRem_eq_two {hh k i la lb ra rb ti tk : Nat}
    {ks kst vst lc ld rc rd tkst tvst : Str} {le lg re rg : Tree}
    (h1 : ¬hh < k) (h2 : ¬k < hh) (h3 : kst = ks)
    (hmv : minValueNode (.node ra rb rc rd re rg) = (ti, tk, tkst, tvst)) :
    delRem hh ks (.node i k kst vst (.node la lb lc ld le lg) (.node ra rb rc rd re rg)) =
      delRem tk tkst (.node ra rb rc rd re rg) := by
  conv_lhs => rw [delRem.eq_def]
  simp only [h1, h2, h3, if_true, if_false, eq_self_iff_true, hmv]

theorem triple_unique {t : Tree} (hu : t.pairsOf.Nodup) {c1 c2 : Nat × Str × Str}
    (h1 : c1 ∈ t.contentsOf) (h2 : c2 ∈ t.contentsOf)
    (hp : (c1.1, c1.2.1) = (c2.1, c2.2.1)) : c1 = c2 := by
  rw [pairsOf_eq_map] at hu
  exact List.inj_on_of_nodup_map hu h1 h2 hp

/-- Under the invariants, `deleteNode` removes exactly the entries whose
`(hash, key)` pair is the requested one. -/
theorem del_contents_iff :
    ∀ {t : Tree}, BST t → t.pairsOf.Nodup → ∀ (hh : Nat) (ks : Str) (trip : Nat × Str × Str),
      (trip ∈ (delT hh ks t).contentsOf ↔
        trip ∈ t.contentsOf ∧ (trip.1, trip.2.1) ≠ (hh, ks)) := by
  intro t
  induction t with
  | nil => intro _ _ hh ks trip; simp [delT, Tree.contentsOf]
  | node i k kst vst l r ihl ihr =>
    intro hb hu hh ks trip
    cases hb with
    | node hkl hkr bl br =>
    have hsp := @nodupSplit _ (k, kst) l.pairsOf r.pairsOf hu
    by_cases h1 : hh < k
    · rw [delT_eq_lt h1]
      have ihl' := ihl bl hsp.2.2.1 hh ks trip
      have hfr : ∀ c : Nat × Str × Str, c ∈ r.contentsOf → (c.1, c.2.1) ≠ (hh, ks) := by
        intro c hc he
        have := hkr c.1 (mem_keys_of_mem_contents hc)
        have : c.1 = hh := congrArg Prod.fst he
        omega
      constructor
      · intro htr
        rcases List.mem_append.mp htr with htr | htr
        · obtain ⟨hin, hne⟩ := ihl'.mp htr
          exact ⟨List.mem_append_left _ hin, hne⟩
        · rcases List.mem_cons.mp htr with rfl | htr
          · refine ⟨List.mem_append_right _ (List.mem_cons_self _ _), fun hc => ?_⟩
            have : k = hh := congrArg Prod.fst hc
            omega
          · exact ⟨List.mem_append_right _ (List.mem_cons_of_mem _ htr), hfr _ htr⟩
      · rintro ⟨htr, hne⟩
        rcases List.mem_append.mp htr with htr | htr
        · exact List.mem_append_left _ (ihl'.mpr ⟨htr, hne⟩)
        · rcases List.mem_cons.mp htr with rfl | htr
          · exact List.mem_append_right _ (List.mem_cons_self _ _)
          · exact List.mem_append_right _ (List.mem_cons_of_mem _ htr)
    · by_cases h2 : k < hh
      · rw [delT_eq_gt h1 h2]
        have ihr' := ihr br hsp.2.2.2.1 hh ks trip
        have hfl : ∀ c : Nat × Str × Str, c ∈ l.contentsOf → (c.1, c.2.1) ≠ (hh, ks) := by
          intro c hc he
          have := hkl c.1 (mem_keys_of_mem_contents hc)
          have : c.1 = hh := congrArg Prod.fst he
          omega
        constructor
        · intro htr
          rcases List.mem_append.mp htr with htr | htr
          · exact ⟨List.mem_append_left _ htr, hfl _ htr⟩
          · rcases List.mem_cons.mp htr with rfl | htr
            · refine ⟨List.mem_append_right _ (List.mem_cons_self _ _), fun hc => ?_⟩
              have : k = hh := congrArg Prod.fst hc
              omega
            · obtain ⟨hin, hne⟩ := ihr'.mp htr
              exact ⟨List.mem_append_right _ (List.mem_cons_of_mem _ hin), hne⟩
        · rintro ⟨htr, hne⟩
          rcases List.mem_append.mp htr with htr | htr
          · exact List.mem_append_left _ htr
          · rcases List.mem_cons.mp htr with rfl | htr
            · exact List.mem_append_right _ (List.mem_cons_self _ _)
            · exact List.mem_append_right _ (List.mem_cons_of_mem _ (ihr'.mpr ⟨htr, hne⟩))
      · have hk : hh = k := Nat.le_antisymm (Nat.not_lt.mp h2) (Nat.not_lt.mp h1)
        by_cases h3 : kst = ks
        · have hpair_eq : ((hh : Nat), ks) = ((k : Nat), kst) := by rw [hk, h3]
          cases l with
          | nil =>
            rw [delT_eq_lnil h1 h2 h3]
            constructor
            · intro htr
              refine ⟨List.mem_append_right _ (List.mem_cons_of_mem _ htr), fun hc => ?_⟩
              have hm : (trip.1, trip.2.1) ∈ r.pairsOf := mem_pairs_of_mem_contents htr
              rw [hc, hpair_eq] at hm
              exact hsp.2.1 hm
            · rintro ⟨htr, hne⟩
              rcases List.mem_append.mp htr with htr | htr
              · exact absurd htr (List.not_mem_nil _)
              · rcases List.mem_cons.mp htr with rfl | htr
                · exact absurd hpair_eq.symm hne
                · exact htr
          | node la lb lc ld le lg =>
            cases r with
            | nil =>
              rw [delT_eq_rnil h1 h2 h3]
              constructor
              · intro htr
                refine ⟨List.mem_append_left _ htr, fun hc => ?_⟩
                have hm : (trip.1, trip.2.1) ∈ (Tree.node la lb lc ld le lg).pairsOf :=
                  mem_pairs_of_mem_contents htr
                rw [hc, hpair_eq] at hm
                exact hsp.1 hm
              · rintro ⟨htr, hne⟩
                rcases List.mem_append.mp htr with htr | htr
                · exact htr
                · rcases List.mem_cons.mp htr with rfl | htr
                  · exact absurd hpair_eq.symm hne
                  · exact absurd htr (List.not_mem_nil _)
            | node ra rb rc rd re rg =>
              rcases hmv : minValueNode (Tree.node ra rb rc rd re rg) with ⟨ti, tk, tkst, tvst⟩
              rw [delT_eq_two h1 h2 h3 hmv]
              have hmem3 : ((tk : Nat), (tkst : Str), (tvst : Str)) ∈
                  (Tree.node ra rb rc rd re rg).contentsOf := by
                have := @minV_mem (.node ra rb rc rd re rg) (by simp)
                rw [hmv] at this
                exact this
              have hpmem : ((tk : Nat), (tkst : Str)) ∈ (Tree.node ra rb rc rd re rg).pairsOf :=
                mem_pairs_of_mem_contents hmem3
              have ihr' := ihr br hsp.2.2.2.1 tk tkst trip
              constructor
              · intro htr
                rcases List.mem_append.mp htr with htr | htr
                · refine ⟨List.mem_append_left _ htr, fun hc => ?_⟩
                  have hm : (trip.1, trip.2.1) ∈ (Tree.node la lb lc ld le lg).pairsOf :=
                    mem_pairs_of_mem_contents htr
                  rw [hc, hpair_eq] at hm
                  exact hsp.1 hm
                · rcases List.mem_cons.mp htr with rfl | htr
                  · refine ⟨List.mem_append_right _ (List.mem_cons_of_mem _ hmem3),
                      fun hc => ?_⟩
                    rw [hpair_eq] at hc
                    have hc2 : ((tk : Nat), (tkst : Str)) = (k, kst) := hc
                    exact hsp.2.1 (hc2 ▸ hpmem)
                  · obtain ⟨hin, _⟩ := ihr'.mp htr
                    refine ⟨List.mem_append_right _ (List.mem_cons_of_mem _ hin),
                      fun hc => ?_⟩
                    have hm : (trip.1, trip.2.1) ∈ (Tree.node ra rb rc rd re rg).pairsOf :=
                      mem_pairs_of_mem_contents hin
                    rw [hc, hpair_eq] at hm
                    exact hsp.2.1 hm
              · rintro ⟨htr, hne⟩
                rcases List.mem_append.mp htr with htr | htr
                · exact List.mem_append_left _ htr
                · rcases List.mem_cons.mp htr with rfl | htr
                  · exact absurd hpair_eq.symm hne
                  · by_cases hc : (trip.1, trip.2.1) = ((tk : Nat), tkst)
                    · have : trip = (tk, tkst, tvst) :=
                        triple_unique hsp.2.2.2.1 htr hmem3 hc
                      rw [this]
                      exact List.mem_append_right _ (List.mem_cons_self _ _)
                    · exact List.mem_append_right _
                        (List.mem_cons_of_mem _ (ihr'.mpr ⟨htr, hc⟩))
        · rw [delT_eq_ne h1 h2 h3]
          have ihr' := ihr br hsp.2.2.2.1 hh ks trip
          have hfl : ∀ c : Nat × Str × Str, c ∈ l.contentsOf → (c.1, c.2.1) ≠ (hh, ks) := by
            intro c hc he
            have := hkl c.1 (mem_keys_of_mem_contents hc)
            have : c.1 = hh := congrArg Prod.fst he
            omega
          have hfn : ¬((k : Nat), kst) = ((hh : Nat), ks) := by
            intro hc
            apply h3
            have := congrArg Prod.snd hc
            simpa using this
          constructor
          · intro htr
            rcases List.mem_append.mp htr with htr | htr
            · exact ⟨List.mem_append_left _ htr, hfl _ htr⟩
            · rcases List.mem_cons.mp htr with rfl | htr
              · exact ⟨List.mem_append_right _ (List.mem_cons_self _ _), hfn⟩
              · obtain ⟨hin, hne⟩ := ihr'.mp htr
                exact ⟨List.mem_append_right _ (List.mem_cons_of_mem _ hin), hne⟩
          · rintro ⟨htr, hne⟩
            rcases List.mem_append.mp htr with htr | htr
            · exact List.mem_append_left _ htr
            · rcases List.mem_cons.mp htr with rfl | htr
              · exact List.mem_append_right _ (List.mem_cons_self _ _)
              · exact List.mem_append_right _ (List.mem_cons_of_mem _ (ihr'.mpr ⟨htr, hne⟩))

theorem del_pairs_sub {t : Tree} (hb : BST t) (hu : t.pairsOf.Nodup) {hh : Nat} {ks : Str}
    {p : Nat × Str} (hp : p ∈ (delT hh ks t).pairsOf) : p ∈ t.pairsOf ∧ p ≠ (hh, ks) := by
  rw [pairsOf_eq_map] at hp
  obtain ⟨c, hc, rfl⟩ := List.mem_map.mp hp
  obtain ⟨hin, hne⟩ := (del_contents_iff hb hu hh ks c).mp hc
  exact ⟨mem_pairs_of_mem_contents hin, hne⟩

theorem del_keys_sub {t : Tree} (hb : BST t) (hu : t.pairsOf.Nodup) {hh : Nat} {ks : Str}
    {x : Nat} (hx : x ∈ (delT hh ks t).keysOf) : x ∈ t.keysOf := by
  rw [keysOf_eq_map] at hx
  obtain ⟨p, hp, rfl⟩ := List.mem_map.mp hx
  exact mem_keys_of_mem_pairs (del_pairs_sub hb hu hp).1

theorem del_bst : ∀ {t : Tree}, BST t → t.pairsOf.Nodup → ∀ (hh : Nat) (ks : Str),
    BST (delT hh ks t) := by
  intro t
  induction t with
  | nil => intro _ _ hh ks; exact BST.nil
  | node i k kst vst l r ihl ihr =>
    intro hb hu hh ks
    cases hb with
    | node hkl hkr bl br =>
    have hsp := @nodupSplit _ (k, kst) l.pairsOf r.pairsOf hu
    by_cases h1 : hh < k
    · rw [delT_eq_lt h1]
      exact BST.node (fun x hx => hkl x (del_keys_sub bl hsp.2.2.1 hx)) hkr
        (ihl bl hsp.2.2.1 hh ks) br
    · by_cases h2 : k < hh
      · rw [delT_eq_gt h1 h2]
        exact BST.node hkl (fun x hx => hkr x (del_keys_sub br hsp.2.2.2.1 hx)) bl
          (ihr br hsp.2.2.2.1 hh ks)
      · by_cases h3 : kst = ks
        · cases l with
          | nil => rw [delT_eq_lnil h1 h2 h3]; exact br
          | node la lb lc ld le lg =>
            cases r with
            | nil => rw [delT_eq_rnil h1 h2 h3]; exact bl
            | node ra rb rc rd re rg =>
              rcases hmv : minValueNode (Tree.node ra rb rc rd re rg) with ⟨ti, tk, tkst, tvst⟩
              rw [delT_eq_two h1 h2 h3 hmv]
              have hmem3 : ((tk : Nat), (tkst : Str), (tvst : Str)) ∈
                  (Tree.node ra rb rc rd re rg).contentsOf := by
                have := @minV_mem (.node ra rb rc rd re rg) (by simp)
                rw [hmv] at this
                exact this
              have hktk : k ≤ tk := hkr tk (mem_keys_of_mem_contents hmem3)
              have hmin : ∀ x ∈ (Tree.node ra rb rc rd re rg).keysOf, tk ≤ x := by
                intro x hx
                have := minV_min br x hx
                rw [hmv] at this
                exact this
              refine BST.node ?_ ?_ bl (ihr br hsp.2.2.2.1 tk tkst)
              · intro x hx
                have := hkl x hx
                omega
              · intro x hx
                exact hmin x (del_keys_sub br hsp.2.2.2.1 hx)
        · rw [delT_eq_ne h1 h2 h3]
          exact BST.node hkl (fun x hx => hkr x (del_keys_sub br hsp.2.2.2.1 hx)) bl
            (ihr br hsp.2.2.2.1 hh ks)

theorem del_pairs_nodup : ∀ {t : Tree}, BST t → t.pairsOf.Nodup → ∀ (hh : Nat) (ks : Str),
    (delT hh ks t).pairsOf.Nodup := by
  intro t
  induction t with
  | nil => intro _ _ hh ks; simp [delT, Tree.pairsOf]
  | node i k kst vst l r ihl ihr =>
    intro hb hu hh ks
    cases hb with
    | node hkl hkr bl br =>
    have hsp := @nodupSplit _ (k, kst) l.pairsOf r.pairsOf hu
    by_cases h1 : hh < k
    · rw [delT_eq_lt h1]
      refine nodupJoin ?_ hsp.2.1 (ihl bl hsp.2.2.1 hh ks) hsp.2.2.2.1 ?_
      · intro hc
        exact hsp.1 (del_pairs_sub bl hsp.2.2.1 hc).1
      · intro a ha
        exact hsp.2.2.2.2 a (del_pairs_sub bl hsp.2.2.1 ha).1
    · by_cases h2 : k < hh
      · rw [delT_eq_gt h1 h2]
        refine nodupJoin hsp.1 ?_ hsp.2.2.1 (ihr br hsp.2.2.2.1 hh ks) ?_
        · intro hc
          exact hsp.2.1 (del_pairs_sub br hsp.2.2.2.1 hc).1
        · intro a ha hc
          exact hsp.2.2.2.2 a ha (del_pairs_sub br hsp.2.2.2.1 hc).1
      · by_cases h3 : kst = ks
        · cases l with
          | nil => rw [delT_eq_lnil h1 h2 h3]; exact hsp.2.2.2.1
          | node la lb lc ld le lg =>
            cases r with
            | nil => rw [delT_eq_rnil h1 h2 h3]; exact hsp.2.2.1
            | node ra rb rc rd re rg =>
              rcases hmv : minValueNode (Tree.node ra rb rc rd re rg) with ⟨ti, tk, tkst, tvst⟩
              rw [delT_eq_two h1 h2 h3 hmv]
              have hmem3 : ((tk : Nat), (tkst : Str), (tvst : Str)) ∈
                  (Tree.node ra rb rc rd re rg).contentsOf := by
                have := @minV_mem (.node ra rb rc rd re rg) (by simp)
                rw [hmv] at this
                exact this
              have hktk : k ≤ tk := hkr tk (mem_keys_of_mem_contents hmem3)
              refine nodupJoin ?_ ?_ hsp.2.2.1 (ihr br hsp.2.2.2.1 tk tkst) ?_
              · intro hc
                have := hkl tk (mem_keys_of_mem_pairs hc)
                omega
              · intro hc
                exact (del_pairs_sub br hsp.2.2.2.1 hc).2 rfl
              · intro a ha hc
                exact hsp.2.2.2.2 a ha (del_pairs_sub br hsp.2.2.2.1 hc).1
        · rw [delT_eq_ne h1 h2 h3]
          refine nodupJoin hsp.1 ?_ hsp.2.2.1 (ihr br hsp.2.2.2.1 hh ks) ?_
          · intro hc
            exact hsp.2.1 (del_pairs_sub br hsp.2.2.2.1 hc).1
          · intro a ha hc
            exact hsp.2.2.2.2 a ha (del_pairs_sub br hsp.2.2.2.1 hc).1

/-- When the requested pair is stored, `deleteNode` removes exactly one
node: `delRem` names it, it is in the tree, and the tree's id multiset
loses exactly that id. -/
theorem del_present_some : ∀ {t : Tree}, BST t → t.pairsOf.Nodup →
    ∀ (hh : Nat) (ks : Str), (hh, ks) ∈ t.pairsOf →
      ∃ a, delRem hh ks t = some a ∧ a ∈ t.idsOf ∧
        (delT hh ks t).idsOf.Perm (t.idsOf.erase a) := by
  intro t
  induction t with
  | nil => intro _ _ hh ks hp; simp [Tree.pairsOf] at hp
  | node i k kst vst l r ihl ihr =>
    intro hb hu hh ks hp
    cases hb with
    | node hkl hkr bl br =>
    have hsp := @nodupSplit _ (k, kst) l.pairsOf r.pairsOf hu
    by_cases h1 : hh < k
    · obtain ⟨a, ha, hmem, hperm⟩ :=
        ihl bl hsp.2.2.1 hh ks (pair_mem_left hp hkr h1)
      refine ⟨a, by rw [delRem_eq_lt h1]; exact ha, List.mem_append_left _ hmem, ?_⟩
      rw [delT_eq_lt h1]
      exact (List.Perm.append_right _ hperm).trans (erase_append_left_perm hmem _ _).symm
    · by_cases h2 : k < hh
      · have hne : ((hh : Nat), ks) ≠ (k, kst) := by
          intro hc
          have : hh = k := congrArg Prod.fst hc
          omega
        obtain ⟨a, ha, hmem, hperm⟩ :=
          ihr br hsp.2.2.2.1 hh ks (pair_mem_right hp hkl h1 hne)
        refine ⟨a, by rw [delRem_eq_gt h1 h2]; exact ha,
          List.mem_append_right _ (List.mem_cons_of_mem _ hmem), ?_⟩
        rw [delT_eq_gt h1 h2]
        exact (List.Perm.append_left _ (List.Perm.cons _ hperm)).trans
          (erase_append_right_perm hmem _ _).symm
      · by_cases h3 : kst = ks
        · cases l with
          | nil =>
            refine ⟨i, delRem_eq_lnil h1 h2 h3, by simp [Tree.idsOf], ?_⟩
            rw [delT_eq_lnil h1 h2 h3]
            have he : (Tree.idsOf (Tree.node i k kst vst .nil r)).erase i = r.idsOf := by
              simp [Tree.idsOf]
            rw [he]
          | node la lb lc ld le lg =>
            cases r with
            | nil =>
              refine ⟨i, delRem_eq_rnil h1 h2 h3, by simp [Tree.idsOf], ?_⟩
              rw [delT_eq_rnil h1 h2 h3]
              have hp1 : (Tree.idsOf (Tree.node i k kst vst (.node la lb lc ld le lg)
                  .nil)).Perm (i :: (Tree.node la lb lc ld le lg).idsOf) := by
                have := @List.perm_middle _ i (Tree.node la lb lc ld le lg).idsOf ([] : List Nat)
                simpa [Tree.idsOf] using this
              exact (erase_perm_of_perm_cons hp1).symm
            | node ra rb rc rd re rg =>
              rcases hmv : minValueNode (Tree.node ra rb rc rd re rg) with ⟨ti, tk, tkst, tvst⟩
              have hmem3 : ((tk : Nat), (tkst : Str), (tvst : Str)) ∈
                  (Tree.node ra rb rc rd re rg).contentsOf := by
                have := @minV_mem (.node ra rb rc rd re rg) (by simp)
                rw [hmv] at this
                exact this
              obtain ⟨a, ha, hmem, hperm⟩ := ihr br hsp.2.2.2.1 tk tkst
                (mem_pairs_of_mem_contents hmem3)
              refine ⟨a, by rw [delRem_eq_two h1 h2 h3 hmv]; exact ha,
                List.mem_append_right _ (List.mem_cons_of_mem _ hmem), ?_⟩
              rw [delT_eq_two h1 h2 h3 hmv]
              exact (List.Perm.append_left _ (List.Perm.cons _ hperm)).trans
                (erase_append_right_perm hmem _ _).symm
        · have hne : ((hh : Nat), ks) ≠ (k, kst) := by
            intro hc
            apply h3
            have := congrArg Prod.snd hc
            simpa [eq_comm] using this
          obtain ⟨a, ha, hmem, hperm⟩ :=
            ihr br hsp.2.2.2.1 hh ks (pair_mem_right hp hkl h1 hne)
          refine ⟨a, by rw [delRem_eq_ne h1 h2 h3]; exact ha,
            List.mem_append_right _ (List.mem_cons_of_mem _ hmem), ?_⟩
          rw [delT_eq_ne h1 h2 h3]
          exact (List.Perm.append_left _ (List.Perm.cons _ hperm)).trans
            (erase_append_right_perm hmem _ _).symm

/-- The value component of a search result. -/
def sval (o : Option (Nat × Nat × Str × Str)) : Option Str := o.map fun x => x.2.2.2

/-- After deleting a stored pair, searching that pair fails. -/
theorem searchN_delT_same {t : Tree} (hb : BST t) (hu : t.pairsOf.Nodup)
    (hh : Nat) (ks : Str) : searchN hh ks (delT hh ks t) = none := by
  cases e : searchN hh ks (delT hh ks t) with
  | none => rfl
  | some o =>
    obtain ⟨e1, e2, e3⟩ := searchN_some e
    obtain ⟨_, hne⟩ := (del_contents_iff hb hu hh ks (hh, ks, o.2.2.2)).mp e3
    exact absurd rfl hne

/-- Deleting one pair does not change the result of searching any other
pair (up to the node identity, which deletion's successor-copy may
change: values are compared). -/
theorem searchN_delT_other {t : Tree} (hb : BST t) (hu : t.pairsOf.Nodup)
    {hh h' : Nat} {ks ks' : Str} (hdiff : ((h' : Nat), ks') ≠ (hh, ks)) :
    sval (searchN h' ks' (delT hh ks t)) = sval (searchN h' ks' t) := by
  cases e1 : searchN h' ks' t with
  | none =>
    cases e2 : searchN h' ks' (delT hh ks t) with
    | none => rfl
    | some o =>
      obtain ⟨f1, f2, f3⟩ := searchN_some e2
      obtain ⟨hin, _⟩ := (del_contents_iff hb hu hh ks (h', ks', o.2.2.2)).mp f3
      obtain ⟨j, hj⟩ := searchN_complete hb hu hin
      rw [e1] at hj
      exact absurd hj (by simp)
  | some o =>
    obtain ⟨f1, f2, f3⟩ := searchN_some e1
    have hin : (h', ks', o.2.2.2) ∈ (delT hh ks t).contentsOf :=
      (del_contents_iff hb hu hh ks (h', ks', o.2.2.2)).mpr ⟨f3, hdiff⟩
    obtain ⟨j, hj⟩ := searchN_complete (del_bst hb hu hh ks) (del_pairs_nodup hb hu hh ks) hin
    rw [hj]
    simp [sval]

/-- If the pair is not yet stored (and the tree is not empty), insert
allocates a node. -/
theorem ins_new_of_absent {h : Nat} {ks : Str} :
    ∀ {t : Tree}, (h, ks) ∉ t.pairsOf → t ≠ .nil → insNew h ks t = true := by
  intro t
  induction t with
  | nil => intro _ hne; exact absurd rfl hne
  | node i k kst vst l r ihl ihr =>
    intro hnotin _
    have hnl : (h, ks) ∉ l.pairsOf := fun hc =>
      hnotin (by simp [Tree.pairsOf, List.mem_append, hc])
    have hnr : (h, ks) ∉ r.pairsOf := fun hc =>
      hnotin (by simp [Tree.pairsOf, List.mem_append, hc])
    have hnn : (h, ks) ≠ (k, kst) := fun hc =>
      hnotin (by simp [Tree.pairsOf, List.mem_append, hc])
    unfold insNew
    by_cases h1 : h < k
    · rw [if_pos h1]
      cases l with
      | nil => rfl
      | node a b c d e g => exact ihl hnl (by simp)
    · rw [if_neg h1]
      by_cases h2 : k < h
      · rw [if_pos h2]
        cases r with
        | nil => rfl
        | node a b c d e g => exact ihr hnr (by simp)
      · rw [if_neg h2]
        have hk : h = k := Nat.le_antisymm (Nat.not_lt.mp h2) (Nat.not_lt.mp h1)
        have h3 : kst ≠ ks := by
          intro hc
          exact hnn (by rw [hk, hc])
        rw [if_neg h3]
        cases r with
        | nil => rfl
        | node a b c d e g => exact ihr hnr (by simp)

/-! ## The whole-dictionary invariant and reachable states -/

/-- Invariants of a well-formed `Dictionary` state: tree ordering,
uniqueness of `(hash, keystr)` pairs, every node's hash is the CRC of
its key string, node ids are distinct and below the allocation counter,
and `Q` holds exactly the tree's nodes. -/
structure DInv (d : Dictionary) : Prop where
  bst : BST d.iRoot
  uniq : d.iRoot.pairsOf.Nodup
  hashOk : ∀ p ∈ d.iRoot.pairsOf, p.1 = crc p.2
  idsNodup : d.iRoot.idsOf.Nodup
  idsLt : ∀ a ∈ d.iRoot.idsOf, a < d.nextId
  qPerm : d.Q.Perm d.iRoot.idsOf

/-- States reachable from a fresh container by `insert` and `remove`. -/
inductive Reach : Dictionary → Prop where
  | init (n : Nat) : Reach (Dictionary.init n)
  | ins {d : Dictionary} (ks vs : Str) : Reach d → Reach (d.insert ks vs)
  | rem {d : Dictionary} (ks : Str) : Reach d → Reach (d.remove ks)

theorem dinv_init (n : Nat) : DInv (Dictionary.init n) := by
  refine ⟨BST.nil, ?_, ?_, ?_, ?_, ?_⟩ <;> simp [Dictionary.init, Tree.pairsOf, Tree.idsOf]

theorem dinv_insert {d : Dictionary} (hd : DInv d) (ks vs : Str) :
    DInv (d.insert ks vs) := by
  obtain ⟨root, q, nid, isz⟩ := d
  obtain ⟨bst, uniq, hok, idnd, idlt, qperm⟩ := hd
  cases root with
  | nil =>
    have hq : q = [] := qperm.eq_nil
    unfold Dictionary.insert
    simp only []
    refine ⟨?_, ?_, ?_, ?_, ?_, ?_⟩
    · exact BST.node (allKeys_nil _) (allKeys_nil _) BST.nil BST.nil
    · simp [Tree.pairsOf]
    · intro p hp
      simp only [Tree.pairsOf, List.nil_append, List.mem_cons, List.not_mem_nil,
        or_false] at hp
      rw [hp]
    · simp [Tree.idsOf]
    · intro a ha
      simp only [Tree.idsOf, List.nil_append, List.mem_cons, List.not_mem_nil,
        or_false] at ha
      show a < nid + 1
      omega
    · rw [hq]
      exact List.Perm.refl _
  | node a b c e g j =>
    unfold Dictionary.insert
    simp only [insertN_eq]
    by_cases hnew : insNew (crc ks) ks (Tree.node a b c e g j) = true
    · rw [if_pos hnew, if_pos hnew]
      have habs : (crc ks, ks) ∉ (Tree.node a b c e g j).pairsOf := by
        intro hp
        have := (@ins_present_strip (crc ks) ks vs nid (Tree.node a b c e g j) bst hp).2
        rw [this] at hnew
        exact absurd hnew (by simp)
      have hcp := @ins_contents_perm_new (crc ks) ks vs nid (Tree.node a b c e g j)
        habs (by simp)
      have hpp : (insT (crc ks) ks vs nid (Tree.node a b c e g j)).pairsOf.Perm
          ((crc ks, ks) :: (Tree.node a b c e g j).pairsOf) := by
        have hmap := hcp.map (fun c : Nat × Str × Str => (c.1, c.2.1))
        rw [← pairsOf_eq_map] at hmap
        simpa [pairsOf_eq_map] using hmap
      have hip := @ins_ids (crc ks) ks vs nid (Tree.node a b c e g j)
      rw [if_pos hnew] at hip
      refine ⟨ins_bst bst, ?_, ?_, ?_, ?_, ?_⟩
      · exact hpp.nodup_iff.mpr (List.nodup_cons.mpr ⟨habs, uniq⟩)
      · intro p hp
        rcases ins_pairs_sub hp with rfl | hp'
        · rfl
        · exact hok p hp'
      · refine hip.nodup_iff.mpr (List.nodup_cons.mpr ⟨?_, idnd⟩)
        intro hc
        exact absurd (idlt nid hc) (Nat.lt_irrefl nid)
      · intro x hx
        rcases List.mem_cons.mp (hip.mem_iff.mp hx) with rfl | hx'
        · exact Nat.lt_succ_self x
        · exact Nat.lt_succ_of_lt (idlt x hx')
      · have s1 : (q.append nid).Perm ((Tree.node a b c e g j).idsOf ++ [nid]) :=
          qperm.append_right [nid]
        have s2 : ((Tree.node a b c e g j).idsOf ++ [nid]).Perm
            (nid :: (Tree.node a b c e g j).idsOf) :=
          List.perm_append_singleton _ _
        exact (s1.trans s2).trans hip.symm
    · rw [if_neg hnew, if_neg hnew]
      have hpres : (crc ks, ks) ∈ (Tree.node a b c e g j).pairsOf := by
        by_contra habs
        exact hnew (ins_new_of_absent habs (by simp))
      have hstr := (@ins_present_strip (crc ks) ks vs nid (Tree.node a b c e g j) bst hpres).1
      have hpe : (insT (crc ks) ks vs nid (Tree.node a b c e g j)).pairsOf =
          (Tree.node a b c e g j).pairsOf := by
        rw [← pairs_stripV, hstr, pairs_stripV]
      have hip := @ins_ids (crc ks) ks vs nid (Tree.node a b c e g j)
      rw [if_neg hnew] at hip
      refine ⟨ins_bst bst, ?_, ?_, ?_, ?_, ?_⟩
      · rw [hpe]; exact uniq
      · intro p hp
        rw [hpe] at hp
        exact hok p hp
      · exact hip.nodup_iff.mpr idnd
      · intro x hx
        exact idlt x (hip.mem_iff.mp hx)
      · exact qperm.trans hip.symm

theorem dinv_remove {d : Dictionary} (hd : DInv d) (ks : Str) : DInv (d.remove ks) := by
  obtain ⟨root, q, nid, isz⟩ := d
  obtain ⟨bst, uniq, hok, idnd, idlt, qperm⟩ := hd
  unfold Dictionary.remove
  cases hsr : searchN (crc ks) ks root with
  | none =>
    simp only []
    exact ⟨bst, uniq, hok, idnd, idlt, qperm⟩
  | some p =>
    simp only [deleteNode_eq]
    obtain ⟨e1, e2, e3⟩ := searchN_some hsr
    rw [e1]
    have hpm : ((crc ks : Nat), ks) ∈ root.pairsOf := mem_pairs_of_mem_contents e3
    obtain ⟨aa, ha, hmem, hperm⟩ := del_present_some bst uniq (crc ks) ks hpm
    rw [ha]
    refine ⟨del_bst bst uniq _ _, del_pairs_nodup bst uniq _ _, ?_, ?_, ?_, ?_⟩
    · intro p' hp'
      exact hok p' (del_pairs_sub bst uniq hp').1
    · exact hperm.nodup_iff.mpr (idnd.erase aa)
    · intro x hx
      exact idlt x (List.mem_of_mem_erase (hperm.mem_iff.mp hx))
    · exact (qperm.erase aa).trans hperm.symm

theorem reach_dinv {d : Dictionary} (hr : Reach d) : DInv d := by
  induction hr with
  | init n => exact dinv_init n
  | ins ks vs _ ih => exact dinv_insert ih ks vs
  | rem ks _ ih => exact dinv_remove ih ks

/-! ## Claim theorems -/

/-- **C2.** For every sequence of insert and remove operations starting
from a fresh container, the set of node references held by `Q` is
exactly the set of nodes reachable from the tree root. -/
theorem C2_index_mirrors_tree (d : Dictionary) (hr : Reach d) (x : Nat) :
    x ∈ d.Q ↔ x ∈ d.iRoot.idsOf :=
  (reach_dinv hr).qPerm.mem_iff

theorem C2_index_mirrors_tree_witness :
    0 ∈ (((Dictionary.init 10).insert [97] [49]).remove [97]).Q ↔
      0 ∈ (((Dictionary.init 10).insert [97] [49]).remove [97]).iRoot.idsOf :=
  C2_index_mirrors_tree _ (Reach.rem [97] (Reach.ins [97] [49] (Reach.init 10))) 0

/-- **C3.** The claim says that after `destroy()` the root reference is
null and subsequent operations behave as on a fresh container.  The code
frees the tree and reallocates `Q` but never assigns `iRoot = NULL`, so
the root still references the freed tree (a use-after-free on the next
operation).  In the model, where the freed nodes' bytes are taken as
still intact, the root is non-null after `destroy`, and an insert of a
previously stored key walks the stale tree and overwrites it without
registering anything in `Q`: `count()` stays 0 where a fresh container
would report 1. -/
theorem C3_destroy_leaves_root_dangling :
    ((((Dictionary.init 10).insert [97] [49]).destroy).iRoot ≠ Tree.nil) ∧
    ((((Dictionary.init 10).insert [97] [49]).destroy).count = 0) ∧
    (((((Dictionary.init 10).insert [97] [49]).destroy).insert [97] [50]).count = 0) ∧
    (((Dictionary.init 10).insert [97] [50]).count = 1) := by
  decide

/-- The left-subtree ordering stated by the spec: every key in a node's
left subtree is at most the node's key. -/
def LeftLE : Tree → Prop
  | .nil => True
  | .node _ k _ _ l r => (∀ x ∈ l.keysOf, x ≤ k) ∧ LeftLE l ∧ LeftLE r

theorem bst_leftLE : ∀ {t : Tree}, BST t → LeftLE t := by
  intro t
  induction t with
  | nil => intro _; trivial
  | node i k kst vst l r ihl ihr =>
    intro hb
    cases hb with
    | node hkl hkr bl br =>
      exact ⟨fun x hx => Nat.le_of_lt (hkl x hx), ihl bl, ihr br⟩

theorem insT_lt_nil {h k i f : Nat} {ks vs kst vst : Str} {r : Tree} (h1 : h < k) :
    insT h ks vs f (.node i k kst vst .nil r) =
      .node i k kst vst (.node f h ks vs .nil .nil) r := by
  conv_lhs => rw [insT.eq_def]
  simp only [h1, if_true]

theorem insT_lt_node {h k i f a b : Nat} {ks vs kst vst c d : Str} {e g r : Tree}
    (h1 : h < k) :
    insT h ks vs f (.node i k kst vst (.node a b c d e g) r) =
      .node i k kst vst (insT h ks vs f (.node a b c d e g)) r := by
  conv_lhs => rw [insT.eq_def]
  simp only [h1, if_true]

theorem insNew_lt_nil {h k i : Nat} {ks kst vst : Str} {r : Tree} (h1 : h < k) :
    insNew h ks (.node i k kst vst .nil r) = true := by
  conv_lhs => rw [insNew.eq_def]
  simp only [h1, if_true]

theorem insNew_lt_node {h k i a b : Nat} {ks kst vst c d : Str} {e g r : Tree}
    (h1 : h < k) :
    insNew h ks (.node i k kst vst (.node a b c d e g) r) =
      insNew h ks (.node a b c d e g) := by
  conv_lhs => rw [insNew.eq_def]
  simp only [h1, if_true]

theorem ins_key_mem {h : Nat} {ks vs : Str} {f : Nat} {t : Tree} (hne : t ≠ .nil) :
    h ∈ (insT h ks vs f t).keysOf := by
  obtain ⟨j, hj⟩ := @searchN_insT_self h ks vs f _ hne
  have hs := searchN_some hj
  exact mem_keys_of_mem_contents hs.2.2

/-- **C4.** In every reachable state every node's left subtree holds only
hash keys `≤` the node's key, and the insert routine routes a strictly
smaller hash key into the left subtree. -/
theorem C4_left_ordering (d : Dictionary) (hr : Reach d)
    (i k f h : Nat) (kst vst ks vs : Str) (l r : Tree) (q : NodeArray)
    (hlt : h < k) :
    LeftLE d.iRoot ∧
    ∃ l' f' q', insertN h ks vs (.node i k kst vst l r) f q =
      (.node i k kst vst l' r, f', q') ∧ h ∈ l'.keysOf := by
  refine ⟨bst_leftLE (reach_dinv hr).bst, ?_⟩
  cases l with
  | nil =>
    refine ⟨Tree.node f h ks vs .nil .nil, f + 1, q.append f, ?_, by simp [Tree.keysOf]⟩
    rw [insertN_eq, insT_lt_nil hlt, insNew_lt_nil hlt]
    simp
  | node a b c e g j =>
    refine ⟨insT h ks vs f (.node a b c e g j),
      (if insNew h ks (.node a b c e g j) then f + 1 else f),
      (if insNew h ks (.node a b c e g j) then q.append f else q), ?_,
      ins_key_mem (by simp)⟩
    rw [insertN_eq, insT_lt_node hlt, insNew_lt_node hlt]

theorem C4_left_ordering_witness :
    LeftLE ((Dictionary.init 10).insert [97] [49]).iRoot ∧
    ∃ l' f' q', insertN 3 [1] [2] (.node 0 5 [9] [9] .nil .nil) 1 [0] =
      (.node 0 5 [9] [9] l' .nil, f', q') ∧ 3 ∈ l'.keysOf :=
  C4_left_ordering _ (Reach.ins [97] [49] (Reach.init 10)) 0 5 1 3 [9] [9] [1] [2]
    .nil .nil [0] (by decide)

/-- **C7.** Re-inserting a stored key overwrites its value in place: the
value-stripped tree is unchanged (same nodes, keys, shape — so no new
node), `Q` and the allocation counter are untouched, and `count()` is
unchanged. -/
theorem C7_overwrite_in_place (d : Dictionary) (hr : Reach d) (ks vs : Str)
    (hstored : ((crc ks : Nat), ks) ∈ d.iRoot.pairsOf) :
    stripV (d.insert ks vs).iRoot = stripV d.iRoot ∧
    (d.insert ks vs).Q = d.Q ∧
    (d.insert ks vs).nextId = d.nextId ∧
    (d.insert ks vs).count = d.count := by
  have hd := reach_dinv hr
  obtain ⟨root, q, nid, isz⟩ := d
  cases root with
  | nil => simp [Tree.pairsOf] at hstored
  | node a b c e g j =>
    obtain ⟨hstr, hnew⟩ := @ins_present_strip (crc ks) ks vs nid (Tree.node a b c e g j)
      hd.bst hstored
    have hnot : ¬insNew (crc ks) ks (Tree.node a b c e g j) = true := by
      rw [hnew]; simp
    unfold Dictionary.insert
    simp only [insertN_eq]
    rw [if_neg hnot, if_neg hnot]
    exact ⟨hstr, rfl, rfl, rfl⟩

theorem C7_overwrite_in_place_witness :
    stripV (((Dictionary.init 10).insert [97] [49]).insert [97] [50]).iRoot =
      stripV ((Dictionary.init 10).insert [97] [49]).iRoot ∧
    (((Dictionary.init 10).insert [97] [49]).insert [97] [50]).Q =
      ((Dictionary.init 10).insert [97] [49]).Q ∧
    (((Dictionary.init 10).insert [97] [49]).insert [97] [50]).nextId =
      ((Dictionary.init 10).insert [97] [49]).nextId ∧
    (((Dictionary.init 10).insert [97] [49]).insert [97] [50]).count =
      ((Dictionary.init 10).insert [97] [49]).count :=
  C7_overwrite_in_place _ (Reach.ins [97] [49] (Reach.init 10)) [97] [50] (by decide)

/-- **C8.** A lookup of a key not stored returns the empty-string
sentinel, positional access out of range returns the empty string, and
removing a key not stored is a no-op leaving the state unchanged. -/
theorem C8_missing_key_sentinels (d : Dictionary) (ks : Str) (i : Nat)
    (hmiss : ∀ c ∈ d.iRoot.contentsOf, c.2.1 ≠ ks) (hi : d.count ≤ i) :
    d.search ks = [] ∧ d.keyAt i = [] ∧ d.valueAt i = [] ∧ d.remove ks = d := by
  have hnone : searchN (crc ks) ks d.iRoot = none := by
    cases e : searchN (crc ks) ks d.iRoot with
    | none => rfl
    | some o =>
      obtain ⟨e1, e2, e3⟩ := searchN_some e
      exact absurd rfl (hmiss _ e3)
  have hqn : d.Q.get i = none := by
    unfold NodeArray.get
    exact List.get?_eq_none.mpr hi
  refine ⟨?_, ?_, ?_, ?_⟩
  · unfold Dictionary.search
    rw [hnone]
  · unfold Dictionary.keyAt
    rw [hqn]
  · unfold Dictionary.valueAt
    rw [hqn]
  · unfold Dictionary.remove
    rw [hnone]

theorem C8_missing_key_sentinels_witness :
    ((Dictionary.init 10).insert [97] [49]).search [98] = [] ∧
    ((Dictionary.init 10).insert [97] [49]).keyAt 1 = [] ∧
    ((Dictionary.init 10).insert [97] [49]).valueAt 1 = [] ∧
    ((Dictionary.init 10).insert [97] [49]).remove [98] =
      (Dictionary.init 10).insert [97] [49] :=
  C8_missing_key_sentinels _ [98] 1 (by decide) (by decide)

/-! ## Sequences of inserts, and removal correctness (towards C5, C6) -/

/-- Perform a list of `insert(key, value)` calls in order. -/
def insertList (d : Dictionary) (M : List (Str × Str)) : Dictionary :=
  M.foldl (fun d p => d.insert p.1 p.2) d

/-- The value the last insert of key `k` in the sequence carried, if
any. -/
def lastVal (k : Str) : List (Str × Str) → Option Str
  | [] => none
  | p :: M =>
    match lastVal k M with
    | some v => some v
    | none => if p.1 = k then some p.2 else none

theorem reach_insertList {d : Dictionary} (hr : Reach d) :
    ∀ (M : List (Str × Str)), Reach (insertList d M) := by
  intro M
  induction M generalizing d with
  | nil => exact hr
  | cons p M ih => exact ih (Reach.ins p.1 p.2 hr)

/-- Inserting a different key leaves a lookup unchanged
(invariant-free). -/
theorem search_insert_other {d : Dictionary} {ks ks' vs : Str} (hne : ks' ≠ ks) :
    (d.insert ks vs).search ks' = d.search ks' := by
  obtain ⟨root, q, nid, isz⟩ := d
  have hdiff : ¬((crc ks' : Nat) = crc ks ∧ ks' = ks) := fun hc => hne hc.2
  cases root with
  | nil =>
    unfold Dictionary.insert Dictionary.search
    simp only []
    have hleaf : searchN (crc ks') ks' (.node nid (crc ks) ks vs .nil .nil) = none := by
      unfold searchN
      rw [if_neg (fun hc => hne (hc.2.symm))]
      split <;> rfl
    rw [hleaf]
    unfold searchN
    rfl
  | node a b c e g j =>
    unfold Dictionary.insert Dictionary.search
    simp only [insertN_eq]
    rw [searchN_insT_other hdiff]

theorem search_insertList (k : Str) : ∀ (M : List (Str × Str)) (d : Dictionary),
    (insertList d M).search k =
      match lastVal k M with
      | some v => v
      | none => d.search k := by
  intro M
  induction M with
  | nil => intro d; rfl
  | cons p M ih =>
    intro d
    have hstep : insertList d (p :: M) = insertList (d.insert p.1 p.2) M := rfl
    rw [hstep, ih]
    cases hl : lastVal k M with
    | some v => simp [lastVal, hl]
    | none =>
      simp only [lastVal, hl]
      by_cases hpk : p.1 = k
      · rw [if_pos hpk, ← hpk]
        exact C1_insert_then_search d p.1 p.2
      · rw [if_neg hpk]
        exact search_insert_other (fun hc => hpk hc.symm)

/-- `Dictionary::search` through the value view of the inner search. -/
theorem search_eq_sval (d : Dictionary) (ks : Str) :
    d.search ks = (sval (searchN (crc ks) ks d.iRoot)).getD [] := by
  unfold Dictionary.search
  cases e : searchN (crc ks) ks d.iRoot <;> simp [sval]

/-- Removing a key makes a lookup of that key return the empty
sentinel. -/
theorem search_remove_same {d : Dictionary} (hd : DInv d) (ks : Str) :
    (d.remove ks).search ks = [] := by
  unfold Dictionary.remove
  cases hsr : searchN (crc ks) ks d.iRoot with
  | none =>
    unfold Dictionary.search
    rw [hsr]
  | some p =>
    obtain ⟨e1, e2, e3⟩ := searchN_some hsr
    simp only [deleteNode_eq]
    unfold Dictionary.search
    simp only []
    rw [e1, searchN_delT_same hd.bst hd.uniq]

/-- Removing a key makes `containsKey` of that key false. -/
theorem contains_remove_same {d : Dictionary} (hd : DInv d) (ks : Str) :
    (d.remove ks).containsKey ks = false := by
  unfold Dictionary.remove
  cases hsr : searchN (crc ks) ks d.iRoot with
  | none =>
    unfold Dictionary.containsKey
    rw [hsr]
    rfl
  | some p =>
    obtain ⟨e1, e2, e3⟩ := searchN_some hsr
    simp only [deleteNode_eq]
    unfold Dictionary.containsKey
    simp only []
    rw [e1, searchN_delT_same hd.bst hd.uniq]
    rfl

/-- Removing one key leaves lookups of any other key unchanged. -/
theorem search_remove_other {d : Dictionary} (hd : DInv d) {ks ks' : Str}
    (hne : ks' ≠ ks) : (d.remove ks).search ks' = d.search ks' := by
  rw [search_eq_sval, search_eq_sval]
  unfold Dictionary.remove
  cases hsr : searchN (crc ks) ks d.iRoot with
  | none => rfl
  | some p =>
    obtain ⟨e1, e2, e3⟩ := searchN_some hsr
    simp only [deleteNode_eq]
    rw [e1, searchN_delT_other hd.bst hd.uniq (fun hc => hne (congrArg Prod.snd hc))]

/-- **C5.** Two distinct keys with colliding hashes, both inserted (in
any order, possibly interleaved with other inserts — `M` is the whole
insert sequence, `lastVal` the value its last insert of each key
carried), are each retrievable with their own value; removing either
leaves the other retrievable and separately removable. -/
theorem C5_collision_independence (d : Dictionary) (hr : Reach d)
    (k1 k2 v1 v2 : Str) (M : List (Str × Str))
    (hneq : k1 ≠ k2) (_hcol : crc k1 = crc k2)
    (h1 : lastVal k1 M = some v1) (h2 : lastVal k2 M = some v2) :
    (insertList d M).search k1 = v1 ∧
    (insertList d M).search k2 = v2 ∧
    ((insertList d M).remove k1).search k2 = v2 ∧
    (((insertList d M).remove k1).remove k2).containsKey k2 = false ∧
    ((insertList d M).remove k2).search k1 = v1 ∧
    (((insertList d M).remove k2).remove k1).containsKey k1 = false := by
  have hreach := reach_insertList hr M
  have hd := reach_dinv hreach
  have hs1 : (insertList d M).search k1 = v1 := by
    rw [search_insertList, h1]
  have hs2 : (insertList d M).search k2 = v2 := by
    rw [search_insertList, h2]
  refine ⟨hs1, hs2, ?_, ?_, ?_, ?_⟩
  · rw [search_remove_other hd (Ne.symm hneq)]
    exact hs2
  · exact contains_remove_same (reach_dinv (Reach.rem k1 hreach)) k2
  · rw [search_remove_other hd hneq]
    exact hs1
  · exact contains_remove_same (reach_dinv (Reach.rem k2 hreach)) k1

set_option maxRecDepth 100000 in
theorem C5_collision_independence_witness :
    (insertList (Dictionary.init 10)
        [([108, 53, 100, 109, 118, 115], [49]), ([0], [99]),
         ([112, 122, 56, 108, 98, 115], [50])]).search [108, 53, 100, 109, 118, 115] = [49] ∧
    (insertList (Dictionary.init 10)
        [([108, 53, 100, 109, 118, 115], [49]), ([0], [99]),
         ([112, 122, 56, 108, 98, 115], [50])]).search [112, 122, 56, 108, 98, 115] = [50] ∧
    ((insertList (Dictionary.init 10)
        [([108, 53, 100, 109, 118, 115], [49]), ([0], [99]),
         ([112, 122, 56, 108, 98, 115], [50])]).remove
        [108, 53, 100, 109, 118, 115]).search [112, 122, 56, 108, 98, 115] = [50] ∧
    (((insertList (Dictionary.init 10)
        [([108, 53, 100, 109, 118, 115], [49]), ([0], [99]),
         ([112, 122, 56, 108, 98, 115], [50])]).remove
        [108, 53, 100, 109, 118, 115]).remove
        [112, 122, 56, 108, 98, 115]).containsKey [112, 122, 56, 108, 98, 115] = false ∧
    ((insertList (Dictionary.init 10)
        [([108, 53, 100, 109, 118, 115], [49]), ([0], [99]),
         ([112, 122, 56, 108, 98, 115], [50])]).remove
        [112, 122, 56, 108, 98, 115]).search [108, 53, 100, 109, 118, 115] = [49] ∧
    (((insertList (Dictionary.init 10)
        [([108, 53, 100, 109, 118, 115], [49]), ([0], [99]),
         ([112, 122, 56, 108, 98, 115], [50])]).remove
        [112, 122, 56, 108, 98, 115]).remove
        [108, 53, 100, 109, 118, 115]).containsKey [108, 53, 100, 109, 118, 115] = false :=
  C5_collision_independence (Dictionary.init 10) (Reach.init 10)
    [108, 53, 100, 109, 118, 115] [112, 122, 56, 108, 98, 115] [49] [50]
    [([108, 53, 100, 109, 118, 115], [49]), ([0], [99]),
     ([112, 122, 56, 108, 98, 115], [50])]
    (by decide) (by decide) (by decide) (by decide)

/-! ## From positional access to tree contents (towards C6, C9) -/

/-- Each node's id paired with its content, in-order. -/
def nodesOf : Tree → List (Nat × (Nat × Str × Str))
  | .nil => []
  | .node i k kst vst l r => nodesOf l ++ (i, (k, kst, vst)) :: nodesOf r

theorem nodes_map_fst (t : Tree) : (nodesOf t).map Prod.fst = t.idsOf := by
  induction t with
  | nil => rfl
  | node i k kst vst l r ihl ihr => simp [nodesOf, Tree.idsOf, ihl, ihr]

theorem nodes_map_snd (t : Tree) : (nodesOf t).map Prod.snd = t.contentsOf := by
  induction t with
  | nil => rfl
  | node i k kst vst l r ihl ihr => simp [nodesOf, Tree.contentsOf, ihl, ihr]

theorem findById_none : ∀ {t : Tree} {a : Nat}, a ∉ t.idsOf → findById t a = none := by
  intro t
  induction t with
  | nil => intro a _; rfl
  | node i k kst vst l r ihl ihr =>
    intro a ha
    have h1 : i ≠ a := fun hc =>
      ha (by simp [Tree.idsOf, List.mem_append, hc])
    have h2 : a ∉ l.idsOf := fun hc =>
      ha (by simp [Tree.idsOf, List.mem_append, hc])
    have h3 : a ∉ r.idsOf := fun hc =>
      ha (by simp [Tree.idsOf, List.mem_append, hc])
    unfold findById
    rw [if_neg h1, ihl h2, ihr h3]

theorem findById_eq : ∀ {t : Tree}, t.idsOf.Nodup →
    ∀ {a : Nat} {c : Nat × Str × Str}, (a, c) ∈ nodesOf t → findById t a = some c := by
  intro t
  induction t with
  | nil => intro _ a c hm; simp [nodesOf] at hm
  | node i k kst vst l r ihl ihr =>
    intro hnd a c hm
    have hsp := @nodupSplit _ i l.idsOf r.idsOf hnd
    rcases List.mem_append.mp hm with hm | hm
    · have hal : a ∈ l.idsOf := by
        have := List.mem_map_of_mem Prod.fst hm
        rwa [nodes_map_fst] at this
      have hia : i ≠ a := fun hc => hsp.1 (hc ▸ hal)
      unfold findById
      rw [if_neg hia, ihl hsp.2.2.1 hm]
    · rcases List.mem_cons.mp hm with hm | hm
      · obtain ⟨ha, hc⟩ : i = a ∧ (k, kst, vst) = c := by
          have h1 := congrArg Prod.fst hm
          have h2 := congrArg Prod.snd hm
          exact ⟨h1.symm, h2.symm⟩
        unfold findById
        rw [if_pos ha, hc]
      · have har : a ∈ r.idsOf := by
          have := List.mem_map_of_mem Prod.fst hm
          rwa [nodes_map_fst] at this
        have hia : i ≠ a := fun hc => hsp.2.1 (hc ▸ har)
        have hnl : a ∉ l.idsOf := fun hc => hsp.2.2.2.2 a hc har
        unfold findById
        rw [if_neg hia, findById_none hnl, ihr hsp.2.2.2.1 hm]

theorem range_map_get {α β : Type} (q : List α) (F : Option α → β) :
    (List.range q.length).map (fun i => F (q.get? i)) = q.map (fun x => F (some x)) := by
  induction q with
  | nil => rfl
  | cons x q ih =>
    rw [List.length_cons, List.range_succ_eq_map, List.map_cons, List.map_map]
    rw [List.map_cons]
    refine congrArg (F (some x) :: ·) ?_
    rw [← ih]
    rfl

/-- What a node id dereferences to, as used by `key(i)`/`value(i)`. -/
def derefEntry (t : Tree) (o : Option Nat) : Str × Str :=
  match o with
  | some nid =>
    match findById t nid with
    | some c => (c.2.1, c.2.2)
    | none => ([], [])
  | none => ([], [])

theorem keyAt_eq_deref (d : Dictionary) (i : Nat) :
    d.keyAt i = (derefEntry d.iRoot (d.Q.get? i)).1 := by
  unfold Dictionary.keyAt derefEntry NodeArray.get
  cases hq : d.Q.get? i with
  | none => rfl
  | some nid =>
    cases hf : findById d.iRoot nid with
    | none => simp [hf]
    | some c => simp [hf]

theorem valueAt_eq_deref (d : Dictionary) (i : Nat) :
    d.valueAt i = (derefEntry d.iRoot (d.Q.get? i)).2 := by
  unfold Dictionary.valueAt derefEntry NodeArray.get
  cases hq : d.Q.get? i with
  | none => rfl
  | some nid =>
    cases hf : findById d.iRoot nid with
    | none => simp [hf]
    | some c => simp [hf]

/-- The positional entries `(key(i), value(i))`, `i < count()`, are a
permutation of the tree entries' `(keystr, valstr)` pairs. -/
theorem entries_perm {d : Dictionary} (hd : DInv d) :
    ((List.range d.count).map (fun i => (d.keyAt i, d.valueAt i))).Perm
      (d.iRoot.contentsOf.map (fun c => (c.2.1, c.2.2))) := by
  have h1 : (List.range d.count).map (fun i => (d.keyAt i, d.valueAt i)) =
      d.Q.map (fun x => derefEntry d.iRoot (some x)) := by
    have := range_map_get d.Q (fun o => derefEntry d.iRoot o)
    rw [← this]
    refine List.map_congr_left ?_
    intro i _
    rw [keyAt_eq_deref, valueAt_eq_deref]
  rw [h1]
  have h2 : (d.Q.map (fun x => derefEntry d.iRoot (some x))).Perm
      (d.iRoot.idsOf.map (fun x => derefEntry d.iRoot (some x))) :=
    hd.qPerm.map _
  refine h2.trans (List.Perm.of_eq ?_)
  have h3 : d.iRoot.idsOf.map (fun x => derefEntry d.iRoot (some x)) =
      (nodesOf d.iRoot).map (fun n => derefEntry d.iRoot (some n.1)) := by
    rw [← nodes_map_fst, List.map_map]
    rfl
  rw [h3]
  have h4 : ∀ n ∈ nodesOf d.iRoot,
      derefEntry d.iRoot (some n.1) = (n.2.2.1, n.2.2.2) := by
    intro n hn
    have hf : findById d.iRoot n.1 = some n.2 := findById_eq hd.idsNodup (by
      obtain ⟨n1, n2⟩ := n
      exact hn)
    simp [derefEntry, hf]
  rw [List.map_congr_left h4, ← nodes_map_snd, List.map_map]
  rfl

theorem ids_len (t : Tree) : t.idsOf.length = t.contentsOf.length := by
  induction t with
  | nil => rfl
  | node i k kst vst l r ihl ihr => simp [Tree.idsOf, Tree.contentsOf, ihl, ihr]

theorem count_eq_len {d : Dictionary} (hd : DInv d) :
    d.count = d.iRoot.contentsOf.length := by
  unfold Dictionary.count NodeArray.countOf
  rw [hd.qPerm.length_eq, ids_len]

theorem foldl_add_sum (f : Nat → Nat) :
    ∀ (l : List Nat) (n : Nat), l.foldl (fun sz i => sz + f i) n = n + (l.map f).sum := by
  intro l
  induction l with
  | nil => intro n; simp
  | cons x l ih =>
    intro n
    rw [List.foldl_cons, ih, List.map_cons, List.sum_cons]
    omega

/-- `size()` as the sum over the tree's entries. -/
theorem size_eq_sum {d : Dictionary} (hd : DInv d) :
    d.size = (d.iRoot.contentsOf.map (fun c => c.2.1.length + c.2.2.length + 2)).sum := by
  unfold Dictionary.size
  have hfun : (fun (sz i : Nat) => sz + (d.keyAt i).length + (d.valueAt i).length + 2) =
      (fun sz i => sz + ((d.keyAt i).length + (d.valueAt i).length + 2)) := by
    funext sz i
    omega
  rw [hfun, foldl_add_sum]
  simp only [Nat.zero_add]
  have hp := (entries_perm hd).map (fun p : Str × Str => p.1.length + p.2.length + 2)
  rw [List.map_map, List.map_map] at hp
  exact hp.sum_eq

/-- Every stored entry is found by `search` with its own value. -/
theorem search_finds {d : Dictionary} (hd : DInv d) {c : Nat × Str × Str}
    (hc : c ∈ d.iRoot.contentsOf) : d.search c.2.1 = c.2.2 := by
  have hcrc : c.1 = crc c.2.1 := hd.hashOk _ (mem_pairs_of_mem_contents hc)
  have hmem : ((crc c.2.1 : Nat), c.2.1, c.2.2) ∈ d.iRoot.contentsOf := by
    rw [← hcrc]
    exact hc
  obtain ⟨j, hj⟩ := searchN_complete hd.bst hd.uniq hmem
  unfold Dictionary.search
  rw [hj]

theorem contents_nodup {d : Dictionary} (hd : DInv d) : d.iRoot.contentsOf.Nodup := by
  have := hd.uniq
  rw [pairsOf_eq_map] at this
  exact List.Nodup.of_map _ this

/-- Permutation-equal contents make `operator==` report true. -/
theorem beq_of_perm {a b : Dictionary} (ha : DInv a) (hb : DInv b)
    (hp : a.iRoot.contentsOf.Perm b.iRoot.contentsOf) : a.beq b = true := by
  have hsz : b.size = a.size := by
    rw [size_eq_sum ha, size_eq_sum hb, (hp.map _).sum_eq]
  have hct : b.count = a.count := by
    rw [count_eq_len ha, count_eq_len hb, hp.length_eq]
  unfold Dictionary.beq
  rw [if_neg (fun hc => hc hsz), if_neg (fun hc => hc hct)]
  simp only [List.all_eq_true, decide_eq_true_eq]
  intro i hi
  have hmem : (a.keyAt i, a.valueAt i) ∈
      (List.range a.count).map (fun i => (a.keyAt i, a.valueAt i)) :=
    List.mem_map_of_mem _ hi
  have hmem2 := (entries_perm ha).mem_iff.mp hmem
  obtain ⟨c, hc, hpair⟩ := List.mem_map.mp hmem2
  have hk : c.2.1 = a.keyAt i := congrArg Prod.fst hpair
  have hv : c.2.2 = a.valueAt i := congrArg Prod.snd hpair
  have hcb : c ∈ b.iRoot.contentsOf := hp.mem_iff.mp hc
  rw [← hk, ← hv]
  exact (search_finds hb hcb).symm

/-- When `a` stores no empty value, `a == b` forces equal contents. -/
theorem perm_of_beq {a b : Dictionary} (ha : DInv a) (hb : DInv b)
    (hne : ∀ c ∈ a.iRoot.contentsOf, c.2.2 ≠ ([] : Str)) (hbeq : a.beq b = true) :
    a.iRoot.contentsOf.Perm b.iRoot.contentsOf := by
  unfold Dictionary.beq at hbeq
  by_cases h1 : b.size ≠ a.size
  · rw [if_pos h1] at hbeq
    exact absurd hbeq (by simp)
  rw [if_neg h1] at hbeq
  by_cases h2 : b.count ≠ a.count
  · rw [if_pos h2] at hbeq
    exact absurd hbeq (by simp)
  rw [if_neg h2] at hbeq
  simp only [List.all_eq_true, decide_eq_true_eq] at hbeq
  have hsub : ∀ c ∈ a.iRoot.contentsOf, c ∈ b.iRoot.contentsOf := by
    intro c hc
    have hmem : (c.2.1, c.2.2) ∈
        (List.range a.count).map (fun i => (a.keyAt i, a.valueAt i)) :=
      (entries_perm ha).symm.mem_iff.mp (List.mem_map_of_mem _ hc)
    obtain ⟨i, hi, hpair⟩ := List.mem_map.mp hmem
    have hk : a.keyAt i = c.2.1 := congrArg Prod.fst hpair
    have hv : a.valueAt i = c.2.2 := congrArg Prod.snd hpair
    have hsearch : b.search c.2.1 = c.2.2 := by
      rw [← hk, ← hv]
      exact (hbeq i hi).symm
    have hvne : c.2.2 ≠ [] := hne c hc
    cases e : searchN (crc c.2.1) c.2.1 b.iRoot with
    | none =>
      rw [search_eq_sval, e] at hsearch
      exact absurd hsearch.symm hvne
    | some o =>
      have hs := searchN_some e
      have hov : o.2.2.2 = c.2.2 := by
        rw [search_eq_sval, e] at hsearch
        simpa [sval] using hsearch
      have hcrc : c.1 = crc c.2.1 := ha.hashOk _ (mem_pairs_of_mem_contents hc)
      have hfin := hs.2.2
      rw [hov, ← hcrc] at hfin
      exact hfin
  have hlen : b.iRoot.contentsOf.length ≤ a.iRoot.contentsOf.length := by
    rw [← count_eq_len ha, ← count_eq_len hb]
    exact Nat.le_of_eq (not_ne_iff.mp h2)
  exact (List.subperm_of_subset (contents_nodup ha) hsub).perm_of_length_le hlen

/-- **C9.** `size()` equals the sum over all live entries (the tree's
nodes) of key length + value length + 2. -/
theorem C9_size_formula (d : Dictionary) (hr : Reach d) :
    d.size = (d.iRoot.contentsOf.map (fun c => c.2.1.length + c.2.2.length + 2)).sum :=
  size_eq_sum (reach_dinv hr)

theorem C9_size_formula_witness :
    ((Dictionary.init 10).insert [97, 98] [49]).size =
      ((((Dictionary.init 10).insert [97, 98] [49]).iRoot.contentsOf.map
        (fun c => c.2.1.length + c.2.2.length + 2)).sum) :=
  C9_size_formula _ (Reach.ins [97, 98] [49] (Reach.init 10))

/-- Dictionary-level: inserting a pair whose `(hash, key)` is not stored
adds exactly that entry (invariant-free). -/
theorem insert_contents_new {d : Dictionary} {ks vs : Str}
    (habs : ((crc ks : Nat), ks) ∉ d.iRoot.pairsOf) :
    (d.insert ks vs).iRoot.contentsOf.Perm
      (((crc ks : Nat), ks, vs) :: d.iRoot.contentsOf) := by
  obtain ⟨root, q, nid, isz⟩ := d
  cases root with
  | nil =>
    unfold Dictionary.insert
    simp [Tree.contentsOf]
  | node a b c e g j =>
    unfold Dictionary.insert
    simp only [insertN_eq]
    exact ins_contents_perm_new habs (by simp)

theorem insert_pairs_perm_new {d : Dictionary} {ks vs : Str}
    (habs : ((crc ks : Nat), ks) ∉ d.iRoot.pairsOf) :
    (d.insert ks vs).iRoot.pairsOf.Perm (((crc ks : Nat), ks) :: d.iRoot.pairsOf) := by
  have := (@insert_contents_new d ks vs habs).map (fun c : Nat × Str × Str => (c.1, c.2.1))
  rw [← pairsOf_eq_map] at this
  simpa [pairsOf_eq_map] using this

theorem insertList_contents :
    ∀ (L : List (Str × Str)) (d : Dictionary), (L.map Prod.fst).Nodup →
      (∀ p ∈ L, p.1 ∉ d.iRoot.pairsOf.map Prod.snd) →
      (insertList d L).iRoot.contentsOf.Perm
        ((L.map fun p => ((crc p.1 : Nat), p.1, p.2)) ++ d.iRoot.contentsOf) := by
  intro L
  induction L with
  | nil => intro d _ _; simp [insertList]
  | cons p L ih =>
    intro d hnd habs
    have hstep : insertList d (p :: L) = insertList (d.insert p.1 p.2) L := rfl
    have hpabs : ((crc p.1 : Nat), p.1) ∉ d.iRoot.pairsOf := by
      intro hc
      exact habs p (List.mem_cons_self _ _) (List.mem_map_of_mem Prod.snd hc)
    have hnd' : (L.map Prod.fst).Nodup := (List.nodup_cons.mp hnd).2
    have hhead : p.1 ∉ L.map Prod.fst := (List.nodup_cons.mp hnd).1
    have habs' : ∀ q ∈ L, q.1 ∉ (d.insert p.1 p.2).iRoot.pairsOf.map Prod.snd := by
      intro q hq hc
      obtain ⟨pr, hpr, hqeq⟩ := List.mem_map.mp hc
      have hpr2 := (@insert_pairs_perm_new d p.1 p.2 hpabs).mem_iff.mp hpr
      rcases List.mem_cons.mp hpr2 with rfl | hpr3
      · have hq1 : q.1 = p.1 := hqeq.symm
        exact hhead (hq1 ▸ List.mem_map_of_mem Prod.fst hq)
      · exact habs q (List.mem_cons_of_mem _ hq)
          (by rw [← hqeq]; exact List.mem_map_of_mem Prod.snd hpr3)
    have hih := ih (d.insert p.1 p.2) hnd' habs'
    rw [hstep]
    have hins := @insert_contents_new d p.1 p.2 hpabs
    have s1 : ((L.map fun q => ((crc q.1 : Nat), q.1, q.2)) ++
        (d.insert p.1 p.2).iRoot.contentsOf).Perm
        ((L.map fun q => ((crc q.1 : Nat), q.1, q.2)) ++
          (((crc p.1 : Nat), p.1, p.2) :: d.iRoot.contentsOf)) :=
      List.Perm.append_left _ hins
    have s2 : ((L.map fun q => ((crc q.1 : Nat), q.1, q.2)) ++
        (((crc p.1 : Nat), p.1, p.2) :: d.iRoot.contentsOf)).Perm
        (((crc p.1 : Nat), p.1, p.2) ::
          ((L.map fun q => ((crc q.1 : Nat), q.1, q.2)) ++ d.iRoot.contentsOf)) :=
      List.perm_middle
    exact (hih.trans (s1.trans s2))

/-- **C6 (counterexample to symmetry as stated).**  `a` stores the key
"ab" with the empty value and "x" with "v"; `b` stores "a" with "c" and
"x" with "v".  Sizes (8) and counts (2) agree, and every lookup `a`
makes in `b` matches because the missing key "ab" yields the empty
sentinel, equal to the stored empty value — so `a == b`.  But `b == a`
compares "c" against the sentinel and fails. -/
theorem C6_symmetry_counterexample :
    ((((Dictionary.init 10).insert [97, 98] []).insert [120] [118]).beq
      (((Dictionary.init 10).insert [97] [99]).insert [120] [118]) = true) ∧
    ((((Dictionary.init 10).insert [97] [99]).insert [120] [118]).beq
      (((Dictionary.init 10).insert [97, 98] []).insert [120] [118]) = false) := by
  decide

/-- **C6 (amended).**  `==` is reflexive on every reachable container and
insensitive to insertion order; symmetry holds when the left container
stores no empty value (the counterexample shows it can fail otherwise,
because a stored empty value is indistinguishable from a miss). -/
theorem C6_equality_properties (a b : Dictionary) (ha : Reach a) (hb : Reach b)
    (n1 n2 : Nat) (L1 L2 : List (Str × Str)) (hLp : L1.Perm L2)
    (hLk : (L1.map Prod.fst).Nodup) :
    a.beq a = true ∧
    ((∀ c ∈ a.iRoot.contentsOf, c.2.2 ≠ ([] : Str)) →
      a.beq b = true → b.beq a = true) ∧
    (insertList (Dictionary.init n1) L1).beq (insertList (Dictionary.init n2) L2) = true := by
  have hia := reach_dinv ha
  have hib := reach_dinv hb
  refine ⟨beq_of_perm hia hia (List.Perm.refl _), ?_, ?_⟩
  · intro hnoempty hab
    exact beq_of_perm hib hia (perm_of_beq hia hib hnoempty hab).symm
  · have hd1 := reach_dinv (reach_insertList (Reach.init n1) L1)
    have hd2 := reach_dinv (reach_insertList (Reach.init n2) L2)
    have hc1 := insertList_contents L1 (Dictionary.init n1) hLk (by
      intro p _ hc
      simp [Dictionary.init, Tree.pairsOf] at hc)
    have hc2 := insertList_contents L2 (Dictionary.init n2) ((hLp.map Prod.fst).nodup_iff.mp hLk)
      (by
        intro p _ hc
        simp [Dictionary.init, Tree.pairsOf] at hc)
    refine beq_of_perm hd1 hd2 ?_
    have hmap := hLp.map (fun p : Str × Str => ((crc p.1 : Nat), p.1, p.2))
    have e1 : (Dictionary.init n1).iRoot.contentsOf = [] := rfl
    have e2 : (Dictionary.init n2).iRoot.contentsOf = [] := rfl
    rw [e1] at hc1
    rw [e2] at hc2
    simp only [List.append_nil] at hc1 hc2
    exact (hc1.trans hmap).trans hc2.symm

theorem C6_equality_properties_witness :
    ((Dictionary.init 10).insert [97] [49]).beq ((Dictionary.init 10).insert [97] [49]) = true ∧
    ((∀ c ∈ ((Dictionary.init 10).insert [97] [49]).iRoot.contentsOf, c.2.2 ≠ ([] : Str)) →
      ((Dictionary.init 10).insert [97] [49]).beq ((Dictionary.init 7).insert [97] [49]) = true →
      ((Dictionary.init 7).insert [97] [49]).beq ((Dictionary.init 10).insert [97] [49]) = true) ∧
    (insertList (Dictionary.init 10) [([97], [49]), ([98], [50])]).beq
      (insertList (Dictionary.init 7) [([98], [50]), ([97], [49])]) = true :=
  C6_equality_properties _ _ (Reach.ins [97] [49] (Reach.init 10))
    (Reach.ins [97] [49] (Reach.init 7)) 10 7
    [([97], [49]), ([98], [50])] [([98], [50]), ([97], [49])]
    (List.Perm.swap _ _ _) (by decide)

/-! ## Observers as state transformers (C10)

The C++ observers are non-const member functions; to express that they
do not mutate the object, each is translated in state-passing style —
every read of `this` threads the `Dictionary` value through where the
C++ body reads it — and the final state is proven equal to the initial
one. -/

def searchNST (h : Nat) (ks : Str) : Tree → Dictionary →
    (Option (Nat × Nat × Str × Str)) × Dictionary
  | .nil, d => (none, d)
  | .node i k kst vst l r, d =>
    if h = k ∧ kst = ks then (some (i, k, kst, vst), d)
    else if h < k then searchNST h ks l d
    else searchNST h ks r d

def Dictionary.searchST (d : Dictionary) (ks : Str) : Str × Dictionary :=
  match searchNST (crc ks) ks d.iRoot d with
  | (some p, d2) => (p.2.2.2, d2)
  | (none, d2) => ([], d2)

def Dictionary.containsST (d : Dictionary) (ks : Str) : Bool × Dictionary :=
  match searchNST (crc ks) ks d.iRoot d with
  | (o, d2) => (o.isSome, d2)

def Dictionary.keyAtST (d : Dictionary) (i : Nat) : Str × Dictionary :=
  match d.Q.get i with
  | some nid =>
    ((match findById d.iRoot nid with
      | some c => c.2.1
      | none => []), d)
  | none => ([], d)

def Dictionary.valueAtST (d : Dictionary) (i : Nat) : Str × Dictionary :=
  match d.Q.get i with
  | some nid =>
    ((match findById d.iRoot nid with
      | some c => c.2.2
      | none => []), d)
  | none => ([], d)

def Dictionary.countST (d : Dictionary) : Nat × Dictionary := (d.Q.countOf, d)

def Dictionary.sizeST (d : Dictionary) : Nat × Dictionary :=
  (List.range (d.countST).1).foldl
    (fun acc i =>
      let k := acc.2.keyAtST i
      let v := k.2.valueAtST i
      (acc.1 + k.1.length + v.1.length + 2, v.2)) (0, (d.countST).2)

def Dictionary.beqST (a b : Dictionary) : Bool × (Dictionary × Dictionary) :=
  if (b.sizeST).1 ≠ (a.sizeST).1 then (false, ((a.sizeST).2, (b.sizeST).2))
  else if ((b.sizeST).2.countST).1 ≠ ((a.sizeST).2.countST).1 then
    (false, (((a.sizeST).2.countST).2, ((b.sizeST).2.countST).2))
  else
    (List.range ((a.sizeST).2.countST).1).foldl
      (fun acc i =>
        let v := acc.2.1.valueAtST i
        let k := v.2.keyAtST i
        let s := acc.2.2.searchST k.1
        (acc.1 && decide (v.1 = s.1), (k.2, s.2)))
      (true, (((a.sizeST).2.countST).2, ((b.sizeST).2.countST).2))

theorem searchNST_state {h : Nat} {ks : Str} :
    ∀ (t : Tree) (d : Dictionary), (searchNST h ks t d).2 = d := by
  intro t
  induction t with
  | nil => intro d; rfl
  | node i k kst vst l r ihl ihr =>
    intro d
    unfold searchNST
    split
    · rfl
    · split
      · exact ihl d
      · exact ihr d

theorem searchST_state (d : Dictionary) (ks : Str) : (d.searchST ks).2 = d := by
  unfold Dictionary.searchST
  rcases e : searchNST (crc ks) ks d.iRoot d with ⟨o, d2⟩
  have hd2 : d2 = d := by
    have hs := @searchNST_state (crc ks) ks d.iRoot d
    rw [e] at hs
    exact hs
  cases o with
  | none => exact hd2
  | some p => exact hd2

theorem containsST_state (d : Dictionary) (ks : Str) : (d.containsST ks).2 = d := by
  unfold Dictionary.containsST
  rcases e : searchNST (crc ks) ks d.iRoot d with ⟨o, d2⟩
  have hd2 : d2 = d := by
    have hs := @searchNST_state (crc ks) ks d.iRoot d
    rw [e] at hs
    exact hs
  exact hd2

theorem keyAtST_state (d : Dictionary) (i : Nat) : (d.keyAtST i).2 = d := by
  unfold Dictionary.keyAtST
  rcases d.Q.get i with _ | nid
  · rfl
  · rfl

theorem valueAtST_state (d : Dictionary) (i : Nat) : (d.valueAtST i).2 = d := by
  unfold Dictionary.valueAtST
  rcases d.Q.get i with _ | nid
  · rfl
  · rfl

theorem sizeFold_state (d : Dictionary) :
    ∀ (l : List Nat) (p : Nat × Dictionary), p.2 = d →
      ((l.foldl (fun acc i =>
        let k := acc.2.keyAtST i
        let v := k.2.valueAtST i
        (acc.1 + k.1.length + v.1.length + 2, v.2)) p).2 = d) := by
  intro l
  induction l with
  | nil => intro p hp; exact hp
  | cons x l ih =>
    intro p hp
    rw [List.foldl_cons]
    refine ih _ ?_
    show (((p.2.keyAtST x).2).valueAtST x).2 = d
    rw [keyAtST_state, valueAtST_state, hp]

theorem sizeST_state (d : Dictionary) : d.sizeST.2 = d :=
  sizeFold_state d (List.range (d.countST).1) (0, (d.countST).2) rfl

theorem beqFold_state (a b : Dictionary) :
    ∀ (l : List Nat) (p : Bool × (Dictionary × Dictionary)), p.2 = (a, b) →
      ((l.foldl (fun acc i =>
        let v := acc.2.1.valueAtST i
        let k := v.2.keyAtST i
        let s := acc.2.2.searchST k.1
        (acc.1 && decide (v.1 = s.1), (k.2, s.2))) p).2 = (a, b)) := by
  intro l
  induction l with
  | nil => intro p hp; exact hp
  | cons x l ih =>
    intro p hp
    rw [List.foldl_cons]
    refine ih _ ?_
    have hp1 : p.2.1 = a := congrArg Prod.fst hp
    have hp2 : p.2.2 = b := congrArg Prod.snd hp
    show ((((p.2.1.valueAtST x).2).keyAtST x).2,
      (p.2.2.searchST ((((p.2.1.valueAtST x).2).keyAtST x)).1).2) = (a, b)
    rw [valueAtST_state, keyAtST_state, searchST_state, hp1, hp2]

theorem beqST_state (a b : Dictionary) : (a.beqST b).2 = (a, b) := by
  unfold Dictionary.beqST
  have hsa : a.sizeST.2 = a := sizeST_state a
  have hsb : b.sizeST.2 = b := sizeST_state b
  have hca : ((a.sizeST).2.countST).2 = a := by
    unfold Dictionary.countST
    exact hsa
  have hcb : ((b.sizeST).2.countST).2 = b := by
    unfold Dictionary.countST
    exact hsb
  split
  · rw [hsa, hsb]
  · split
    · rw [hca, hcb]
    · refine beqFold_state a b _ _ ?_
      rw [hca, hcb]

/-- **C10.** The observers — search/lookup, contains, positional
`key(i)`/`value(i)`, `count()`, `size()` and `operator==` — do not
modify the container: translated in state-passing style, each returns
the state it was given. -/
theorem C10_observers_pure (d a b : Dictionary) (ks : Str) (i : Nat) :
    (d.searchST ks).2 = d ∧ (d.containsST ks).2 = d ∧ (d.keyAtST i).2 = d ∧
    (d.valueAtST i).2 = d ∧ d.countST.2 = d ∧ d.sizeST.2 = d ∧
    (a.beqST b).2 = (a, b) :=
  ⟨searchST_state d ks, containsST_state d ks, keyAtST_state d i,
    valueAtST_state d i, rfl, sizeST_state d, beqST_state a b⟩

end DictModel
